import Mathlib

/-!
# Turtle-SDL: the recursive-descent parser of `Source/Processor/Parser.cpp`

A shallow embedding of `Parser.cpp` and `Token.hpp`.

* The parser object becomes the record `Parser`; every member function becomes a
  function in the monad `M`, which threads the record and distinguishes a normal
  return, a thrown `std::exception`, undefined behaviour and fuel exhaustion.
* `AstNodePtr` is a shared pointer to a mutable node.  Nodes live in an arena
  (`Parser.heap`) and a pointer is an index into it, so aliasing between the
  context stack and the child lists is kept exactly as in the C++.
* `while` loops and the recursion through statement blocks are bounded by an
  explicit fuel argument; running out of fuel is the separate outcome
  `Res.outOfFuel`, never a parse result.
-/

namespace TurtleGraphics.Processor

/-! ## Data model -/

/-- Modelled from the spec: `EToken.hpp` is not among the sources.  The token kinds are
those of spec section 4.1 under the names `Parser.cpp` uses for them, together with the
two container kinds `StatementBlock` and `ArgList` that `Parser.cpp` creates nodes of. -/
inductive EToken where
  | None | Start | WhiteSpace
  | PenDown | PenUp | Repeat | Rotate | Move | Quit | Function | Delta | Red
  | Number | Identifier
  | OpenParan | CloseParan | OpenBrace | CloseBrace | Comma
  | StatementBlock | ArgList
  deriving DecidableEq, Repr

/-- Modelled from the spec: `StringSplice.hpp` is not among the sources.  A splice is the
"reference to the source text span" of spec section 3: an offset and a length. -/
structure StringSplice where
  offset : Nat := 0
  length : Nat := 0
  deriving DecidableEq, Repr

/-- The `struct Token` of `Token.hpp`; the field `Type` is spelled `type`. -/
structure Token where
  type : EToken
  Splice : StringSplice
  deriving DecidableEq, Repr

/-- The constructor `explicit Token(EToken type = EToken::None) : Type(type) { }`: the splice is
default-constructed. -/
def Token.ofType (type : EToken) : Token := ⟨type, {}⟩

/-- The default token `Token()`. -/
def Token.default : Token := Token.ofType EToken.None

/-- The comparison `operator==(const Token&, const Token&)`: only the token types are compared. -/
def Token.eq (left right : Token) : Bool := decide (left.type = right.type)

/-- A shared pointer to an `AstNode`: an index into the arena `Parser.heap`. -/
abbrev AstNodePtr := Nat

/-- Modelled from the spec: `AstNode.hpp` is not among the sources.  Spec section 3: a node
has a kind, an optional payload token and an ordered sequence of children. -/
structure AstNode where
  kind : EToken
  token : Option Token
  children : List AstNodePtr
  deriving DecidableEq, Repr

/-- A failure message streamed into the diagnostic sink of `ProcessBase`. -/
inductive Diag where
  /-- A fixed text: `Fail("text")` or `Fail() << "text"`. -/
  | text (msg : String)
  /-- The message of `Expect`: `Fail() << "Expected " << type << ", got " << CurrentToken().Type`. -/
  | expected (want got : EToken)
  /-- The message `Fail() << e.what()` in the handler of `Run`. -/
  | what (msg : String)
  deriving DecidableEq, Repr

/-- The members of `class Parser` that `Parser.cpp` reads and writes, with the arena. -/
structure Parser where
  /-- Member `_tokens`: the filtered token list. -/
  tokens : List Token := []
  /-- Member `_currentToken`: the cursor. -/
  currentToken : Nat := 0
  /-- Member `_context`: the stack of open nodes, `front()` first and `back()` last. -/
  context : List AstNodePtr := []
  /-- The arena of every node made by `AstNode::New`. -/
  heap : List AstNode := []
  /-- The parser's own diagnostic sink, written by `Fail`. -/
  errors : List Diag := []
  /-- The sink of `_lexer`, written by `_lexer->Fail()` in `AddArguments`. -/
  lexerErrors : List Diag := []
  deriving DecidableEq, Repr

/-- Outcome of a member function. -/
inductive Res (α : Type) where
  /-- Normal return of `a`, leaving the parser in state `p`. -/
  | ret (a : α) (p : Parser)
  /-- A `std::exception` (from `vector::at`) is in flight; `p` is the state at the throw. -/
  | throw (msg : String) (p : Parser)
  /-- Undefined behaviour: `back()` or `pop_back()` of an empty `_context`. -/
  | undef
  /-- The bound on loop iterations and recursion depth was reached. -/
  | outOfFuel
  deriving DecidableEq, Repr

/-- A member function of `Parser` returning `α`. -/
def M (α : Type) : Type := Parser → Res α

/-- Sequencing of two member-function calls: anything but a normal return propagates. -/
def M.bind {α β : Type} (m : M α) (f : α → M β) : M β := fun p =>
  match m p with
  | Res.ret a p1 => f a p1
  | Res.throw msg p1 => Res.throw msg p1
  | Res.undef => Res.undef
  | Res.outOfFuel => Res.outOfFuel

instance : Monad M where
  pure a := fun p => Res.ret a p
  bind := M.bind

/-! ## `ProcessBase`, `AstNode` and the inline accessors of `Parser.hpp` -/

/-- Modelled from the spec: `ProcessBase.hpp` is not among the sources.  `Fail()` opens a
failure record in the diagnostic sink and the streamed text completes it. -/
def FailWith (d : Diag) : M Unit := fun p =>
  Res.ret () { p with errors := p.errors ++ [d] }

/-- Modelled from the spec: `ProcessBase.hpp` is not among the sources.  `Fail(text)`
records the failure and returns `false`. -/
def Fail (msg : String) : M Bool := fun p =>
  Res.ret false { p with errors := p.errors ++ [Diag.text msg] }

/-- Modelled from the spec: `ProcessBase.hpp` is not among the sources.  "A query answers
whether any failure has been recorded" (spec section 2); `HasSucceeded()` is its negation. -/
def HasSucceeded : M Bool := fun p => Res.ret (decide (p.errors = [])) p

/-- Modelled from the spec: `AstNode.hpp` is not among the sources.  `AstNode::New(EToken)`:
"from a token kind alone (produces a childless, payload-less node)" (spec section 4.3). -/
def AstNode.New (kind : EToken) : M AstNodePtr := fun p =>
  Res.ret p.heap.length { p with heap := p.heap ++ [⟨kind, none, []⟩] }

/-- Modelled from the spec: `AstNode.hpp` is not among the sources.  `AstNode::New(Token)`:
"from a concrete Token (produces a leaf node carrying that token as payload)" (spec
section 4.3); the node's kind is the token's. -/
def AstNode.NewToken (token : Token) : M AstNodePtr := fun p =>
  Res.ret p.heap.length { p with heap := p.heap ++ [⟨token.type, some token, []⟩] }

/-- Append `child` to the child list of the node stored at `parent`. -/
def heapAddChild : List AstNode → AstNodePtr → AstNodePtr → List AstNode
  | [], _, _ => []
  | n :: ns, 0, child => { n with children := n.children ++ [child] } :: ns
  | n :: ns, parent + 1, child => n :: heapAddChild ns parent child

/-- Modelled from the spec: `AstNode.hpp` is not among the sources.
`parent->AddChild(child)`: "Attach child always appends to the end of the owning node's
child sequence" (spec section 4.3). -/
def AstNode.AddChild (parent child : AstNodePtr) : M Unit := fun p =>
  Res.ret () { p with heap := heapAddChild p.heap parent child }

/-- Modelled from the spec: `AstNode.hpp` is not among the sources.
`parent->AddChild(token)`, used by `AddDelta`: the child is a new leaf holding `token`. -/
def AstNode.AddChildToken (parent : AstNodePtr) (token : Token) : M Unit := do
  let child ← AstNode.NewToken token
  AstNode.AddChild parent child

/-- Modelled from the spec: `Parser.hpp` is not among the sources.  `AtEnd()`: the token
list is exhausted (spec section 4.2, Program). -/
def AtEnd : M Bool := fun p => Res.ret (decide (p.tokens.length ≤ p.currentToken)) p

/-- Modelled from the spec: `Parser.hpp` is not among the sources.  The call
`GetTokens().at(i)` reads the parser's working token list (spec section 3, token cursor) and
throws `std::out_of_range` when `i` is not an index. -/
def TokensAt (i : Nat) : M Token := fun p =>
  match p.tokens[i]? with
  | some t => Res.ret t p
  | none => Res.throw "out_of_range" p

/-- Modelled from the spec: `Parser.hpp` is not among the sources.  `CurrentToken()`: the
token at the cursor, read with the checked `at` that `NextToken` uses. -/
def CurrentToken : M Token := fun p => TokensAt p.currentToken p

/-- Modelled from the spec: `Parser.hpp` is not among the sources.  `CurrentTokenType()`. -/
def CurrentTokenType : M EToken := do
  let t ← CurrentToken
  pure t.type

/-- Modelled from the spec: `Parser.hpp` is not among the sources.
`CurrentTokenType(type)`: the current token is of kind `type`. -/
def CurrentTokenTypeIs (type : EToken) : M Bool := do
  let t ← CurrentTokenType
  pure (decide (t = type))

/-- Modelled from the spec: `Parser.hpp` is not among the sources.  `Peek(type)`: "the next
token" is of kind `type` (spec section 4.2, Repeat and Rotate/Move); false when there is no
next token. -/
def Peek (type : EToken) : M Bool := fun p =>
  match p.tokens[p.currentToken + 1]? with
  | some t => Res.ret (decide (t.type = type)) p
  | none => Res.ret false p

/-- The increment `++_currentToken`. -/
def IncCurrentToken : M Unit := fun p =>
  Res.ret () { p with currentToken := p.currentToken + 1 }

/-- The access `_context.back()`; undefined on an empty stack. -/
def ContextBack : M AstNodePtr := fun p =>
  match p.context.getLast? with
  | some top => Res.ret top p
  | none => Res.undef

/-! ## `Parser.cpp` -/

/-- Embeds `void Parser::EnterNode(AstNodePtr const &node)`. -/
def EnterNode (node : AstNodePtr) : M Unit := fun p =>
  match p.context.getLast? with
  | some top =>
    Res.ret () { p with heap := heapAddChild p.heap top node, context := p.context ++ [node] }
  | none => Res.ret () { p with context := p.context ++ [node] }

/-- Embeds `void Parser::LeaveNode()`: `_context.pop_back()`, undefined on an empty stack. -/
def LeaveNode : M Unit := fun p =>
  match p.context with
  | [] => Res.undef
  | _ :: _ => Res.ret () { p with context := p.context.dropLast }

/-- Embeds `bool Parser::AddChild(AstNodePtr const &child)`. -/
def AddChild (child : AstNodePtr) : M Bool := do
  let top ← ContextBack
  AstNode.AddChild top child
  pure true

/-- Embeds `bool Parser::AddChild(Token const &token)`. -/
def AddChildToken (token : Token) : M Bool := do
  IncCurrentToken
  let node ← AstNode.NewToken token
  AddChild node

/-- Embeds `bool Parser::AddChild(EToken type)`. -/
def AddChildEToken (type : EToken) : M Bool :=
  AddChildToken (Token.ofType type)

/-- Embeds `Token Parser::NextToken()`. -/
def NextToken : M Token := do
  if (← AtEnd) then
    FailWith (Diag.text "Token expected")
    pure Token.default
  else
    fun p => TokensAt (p.currentToken + 1) { p with currentToken := p.currentToken + 1 }

/-- Embeds `bool Parser::Expect(EToken type)`.  The message reads `CurrentToken()` after
`CurrentTokenType(type)` has returned on the same state, so it cannot throw there. -/
def Expect (type : EToken) : M Bool := do
  if !(← CurrentTokenTypeIs type) then
    FailWith (Diag.expected type (← CurrentToken).type)
    pure false
  else
    IncCurrentToken
    pure true

/-- Embeds `bool Parser::AddParameterisedCommand(EToken type)`. -/
def AddParameterisedCommand (type : EToken) : M Bool := do
  if !(← Peek EToken.Number) then
    FailWith (Diag.text "Number expected")
    pure false
  else
    let node ← AstNode.New type
    let tok ← NextToken
    let leaf ← AstNode.NewToken tok
    AstNode.AddChild node leaf
    IncCurrentToken
    let _ ← AddChild node
    pure true

/-- Embeds `bool Parser::ParseRotate()`. -/
def ParseRotate : M Bool := AddParameterisedCommand EToken.Rotate

/-- Embeds `bool Parser::ParseMove()`. -/
def ParseMove : M Bool := AddParameterisedCommand EToken.Move

/-- Embeds `bool Parser::ParseExpression()`. -/
def ParseExpression : M Bool := pure false

/-- Embeds `bool Parser::ParseColorName()`. -/
def ParseColorName : M Bool := do
  if !(← Peek EToken.Identifier) then
    Fail "Color Identifier expected"
  else
    Fail "Not implemented"

/-- Embeds `bool Parser::AddDelta(EToken type)`; the parameter is unused, as in the source. -/
def AddDelta (_type : EToken) : M Bool := do
  let what ← CurrentToken
  let num ← NextToken
  let delta ← AstNode.New EToken.Delta
  AstNode.AddChildToken delta what
  AstNode.AddChildToken delta num
  let _ ← AddChild delta
  IncCurrentToken
  pure true

/-- Embeds `bool Parser::ParseDelta()`. -/
def ParseDelta : M Bool := do
  match (← NextToken).type with
  | EToken.Red => AddDelta EToken.Red
  | _ => pure false

/-- The loop `while (AddChild(EToken::Identifier)) { if (!Peek(EToken::Comma)) break;
NextToken(); }` of `AddArguments`, with at most `fuel` iterations. -/
def AddArgumentsLoop : Nat → M Unit
  | 0 => fun _ => Res.outOfFuel
  | fuel + 1 => do
    if (← AddChildEToken EToken.Identifier) then
      if !(← Peek EToken.Comma) then
        pure ()
      else
        let _ ← NextToken
        AddArgumentsLoop fuel
    else
      pure ()

/-- The call `_lexer->Fail() << text`: the failure goes to the lexer's sink. -/
def LexerFail (d : Diag) : M Unit := fun p =>
  Res.ret () { p with lexerErrors := p.lexerErrors ++ [d] }

/-- Embeds `bool Parser::AddArguments()`. -/
def AddArguments (fuel : Nat) : M Bool := do
  if !(← Expect EToken.OpenParan) then
    FailWith (Diag.text "Open parenthesis expected")
    pure false
  else
    let args ← AstNode.New EToken.ArgList
    EnterNode args
    AddArgumentsLoop fuel
    if !(← Expect EToken.CloseParan) then
      LexerFail (Diag.text "Close parenthesis expected")
      pure false
    else
      LeaveNode
      pure true

/-- Embeds `bool Parser::ParseStatementBlock()`; the recursive call of `ParseStatements` is the
parameter. -/
def ParseStatementBlock (ParseStatements : M Bool) : M Bool := do
  if !(← Expect EToken.OpenBrace) then
    pure false
  else if !(← ParseStatements) then
    pure false
  else if !(← Expect EToken.CloseBrace) then
    pure false
  else
    pure true

/-- Embeds `bool Parser::AddStatementBlock()`. -/
def AddStatementBlock (ParseStatements : M Bool) : M Bool := do
  EnterNode (← AstNode.New EToken.StatementBlock)
  if !(← ParseStatementBlock ParseStatements) then
    pure false
  else
    LeaveNode
    pure true

/-- Embeds `bool Parser::ParseRepeat()`. -/
def ParseRepeat (ParseStatements : M Bool) : M Bool := do
  if !(← Peek EToken.Number) then
    Fail "Number expected"
  else
    EnterNode (← AstNode.New EToken.Repeat)
    let _ ← AddChildToken (← NextToken)
    if !(← ParseStatementBlock ParseStatements) then
      pure false
    else
      LeaveNode
      pure true

/-- Embeds `bool Parser::ParseFunction()`. -/
def ParseFunction (fuel : Nat) (ParseStatements : M Bool) : M Bool := do
  let _ ← NextToken
  let funName ← CurrentToken
  if !(← Expect EToken.Identifier) then
    Fail "KeyResponseFunction name expected"
  else
    let funNode ← AstNode.New EToken.Function
    AstNode.AddChild funNode (← AstNode.NewToken funName)
    EnterNode funNode
    if !(← AddArguments fuel) then
      Fail "Failed to parse arguments"
    else if !(← AddStatementBlock ParseStatements) then
      Fail "Statement block expected"
    else
      LeaveNode
      pure true

/-- Embeds `bool Parser::ParseStatement()`. -/
def ParseStatement (fuel : Nat) (ParseStatements : M Bool) : M Bool := do
  if (← AtEnd) then
    pure false
  else
    match (← CurrentTokenType) with
    | EToken.PenDown => AddChildEToken EToken.PenDown
    | EToken.PenUp => AddChildEToken EToken.PenUp
    | EToken.Repeat => ParseRepeat ParseStatements
    | EToken.Rotate => ParseRotate
    | EToken.Move => ParseMove
    | EToken.Quit => AddChildEToken EToken.Quit
    | EToken.Function => ParseFunction fuel ParseStatements
    | EToken.Number => do AddChildToken (← CurrentToken)
    | EToken.Delta => ParseDelta
    | _ => pure false

/-- Embeds `bool Parser::ParseStatements()`.  `fuel` bounds the iterations of the `while` loop,
the depth of the recursion through statement blocks and the loop of `AddArguments`. -/
def ParseStatements : Nat → M Bool
  | 0 => fun _ => Res.outOfFuel
  | fuel + 1 => do
    if (← ParseStatement fuel (ParseStatements fuel)) then
      ParseStatements fuel
    else
      HasSucceeded

/-- Embeds `bool Parser::Run()`: the handler turns an exception into a recorded failure. -/
def Run (fuel : Nat) : M Bool := fun p =>
  match ParseStatements fuel p with
  | Res.throw msg p1 => Res.ret false { p1 with errors := p1.errors ++ [Diag.what msg] }
  | r => r

/-- Embeds `void Parser::SetLexer(const Lexer& lexer)`; a lexer is its token list `GetTokens()`. -/
def SetLexer (lexer : List Token) : M Unit := do
  EnterNode (← AstNode.New EToken.Start)
  fun p => Res.ret () { p with tokens := p.tokens ++ lexer.filter (fun t => t.type ≠ EToken.WhiteSpace) }

/-- Embeds `bool Parser::Run(const Lexer& lexer)`. -/
def RunLexer (fuel : Nat) (lexer : List Token) : M Bool := do
  SetLexer lexer
  Run fuel

/-- Embeds `AstNodePtr Parser::GetRoot() const`; `none` is `nullptr`.  `Fail` writes the sink
although the function is `const`. -/
def GetRoot : M (Option AstNodePtr) := fun p =>
  if p.context.length ≠ 1 then
    Res.ret none { p with errors := p.errors ++ [Diag.text "Unbalanced parse tree"] }
  else
    Res.ret p.context.head? p

/-- Embeds `Parser::Parser(const Lexer& lexer)`: `SetLexer` on the freshly constructed
members. -/
def Parser.New (lexer : List Token) : Res Unit := SetLexer lexer {}

/-- Continue with the member function `f` on the object that `r` left. -/
def Res.andThen {α β : Type} (r : Res α) (f : α → M β) : Res β :=
  match r with
  | Res.ret a p => f a p
  | Res.throw msg p => Res.throw msg p
  | Res.undef => Res.undef
  | Res.outOfFuel => Res.outOfFuel

/-! ## Reading a tree out of the arena -/

/-- The tree under a node pointer, as a value: kind, payload and subtrees in order. -/
inductive Tree where
  | node (kind : EToken) (token : Option Token) (children : List Tree)

/-- All entries of the list, when none is missing. -/
def allSome {α : Type} : List (Option α) → Option (List α)
  | [] => some []
  | none :: _ => none
  | some a :: rest => (allSome rest).map (fun as => a :: as)

/-- Follow the child pointers from `node` down to `depth` levels; `none` when a pointer
dangles or the tree is deeper than `depth`. -/
def toTree (heap : List AstNode) : Nat → AstNodePtr → Option Tree
  | 0, _ => none
  | depth + 1, node =>
    match heap[node]? with
    | none => none
    | some n => (allSome (n.children.map (toTree heap depth))).map (Tree.node n.kind n.token)

/-- The tree that a caller holding the pointer `node` sees. -/
def Parser.tree (p : Parser) (node : AstNodePtr) : Option Tree :=
  toTree p.heap p.heap.length node

/-- A leaf holding `token`. -/
def Tree.leaf (token : Token) : Tree := Tree.node token.type (some token) []

/-! ## Predicates used in the statements -/

/-- The token kinds that `ParseStatement` dispatches on: every `case` of its `switch`. -/
def StartsStatement : EToken → Bool
  | EToken.PenDown | EToken.PenUp | EToken.Repeat | EToken.Rotate | EToken.Move
  | EToken.Quit | EToken.Function | EToken.Number | EToken.Delta => true
  | _ => false

/-- The kinds of the leaf statements: the cases of `ParseStatement` that call `AddChild`
directly. -/
def IsLeafStatement : EToken → Bool
  | EToken.PenDown | EToken.PenUp | EToken.Quit | EToken.Number => true
  | _ => false

/-- The token that the leaf made for a leaf statement holds: the token itself for a
`Number` (`AddChild(CurrentToken())`), a fresh `Token(type)` for a keyword
(`AddChild(EToken)`). -/
def leafPayload (t : Token) : Token :=
  if t.type = EToken.Number then t else Token.ofType t.type

/-- The arena node of the leaf made for a leaf statement. -/
def leafNode (t : Token) : AstNode := ⟨t.type, some (leafPayload t), []⟩

/-- The tokens that the cursor has passed. -/
def Parser.consumed (p : Parser) : List Token := p.tokens.take p.currentToken

/-- How many tokens of kind `type` a list holds. -/
def countKind (type : EToken) (l : List Token) : Nat := l.countP (fun t => t.type = type)

/-- The cursor is at a token whose kind starts no statement: the `default` branch of
`ParseStatement`. -/
def StoppedAtNonStatement (p : Parser) : Prop :=
  ∃ t, p.tokens[p.currentToken]? = some t ∧ StartsStatement t.type = false

/-- The cursor is behind a `delta` keyword, at a token that is not `Red`: the `default`
branch of `ParseDelta`, which returns `false` without a diagnostic. -/
def StoppedBehindDelta (p : Parser) : Prop :=
  ∃ d t, 1 ≤ p.currentToken ∧ p.tokens[p.currentToken - 1]? = some d ∧
    d.type = EToken.Delta ∧ p.tokens[p.currentToken]? = some t ∧ t.type ≠ EToken.Red

/-- Where `ParseStatement` returns `false` without recording a failure. -/
def Stopped (p : Parser) : Prop :=
  p.tokens.length ≤ p.currentToken ∨ StoppedAtNonStatement p ∨ StoppedBehindDelta p

/-- Nodes are never removed from the arena and never change kind or payload. -/
def HeapExt (h h' : List AstNode) : Prop :=
  ∀ (i : Nat) (n : AstNode), h[i]? = some n →
    ∃ n' : AstNode, h'[i]? = some n' ∧ n'.kind = n.kind ∧ n'.token = n.token

/-- What every rule guarantees between its entry state `p` and its exit state `p'`: the
token list is untouched, the arena only grows, and if no failure is recorded at exit then
none was recorded at entry, the context stack is the one of entry and the cursor has
stayed within the token list. -/
def Bal (p p' : Parser) : Prop :=
  p'.tokens = p.tokens ∧ HeapExt p.heap p'.heap ∧
    (p'.errors = [] → p.errors = [] ∧ p'.context = p.context ∧
      (p.currentToken ≤ p.tokens.length → p'.currentToken ≤ p.tokens.length))

/-- A rule that is balanced and never returns `false` without a recorded failure. -/
def Strict (m : M Bool) : Prop :=
  ∀ p b p', m p = Res.ret b p' → Bal p p' ∧ (b = false → p'.errors ≠ [])

/-- What is known of an outcome: `Q` of a normal return, `T` of the state at a throw, `U`
if it is undefined behaviour, `F` if the fuel ran out. -/
def Res.Holds {α : Type} (r : Res α) (Q : α → Parser → Prop) (T : Parser → Prop)
    (U F : Prop) : Prop :=
  match r with
  | Res.ret a p => Q a p
  | Res.throw _ p => T p
  | Res.undef => U
  | Res.outOfFuel => F

/-- The state `p'` follows the state `p`: the token list is the same, the cursor has not
moved back, and every node open at `p` is still open at `p'`. -/
def Follows (p p' : Parser) : Prop :=
  p'.tokens = p.tokens ∧ p.currentToken ≤ p'.currentToken ∧ p.context <+: p'.context

/-- The number of tokens from the cursor to the end of the token list. -/
def Parser.remaining (p : Parser) : Nat := p.tokens.length - p.currentToken

/-- The contract of a grammar rule run with fuel `g`, for every entry state `p`: a return
or a throw leaves a state that follows `p`; a return of `true` leaves the context stack of
entry and a cursor strictly further; undefined behaviour needs an empty context stack at
entry; the fuel runs out only if `g` is less than the number of remaining tokens. -/
def RuleSpec (g : Nat) (m : M Bool) : Prop :=
  ∀ p, (m p).Holds
    (fun b p' => Follows p p' ∧
      (b = true → p'.context = p.context ∧ p.currentToken < p'.currentToken))
    (fun p' => Follows p p') (p.context = []) (g < p.remaining)

/-- The contract of the statement loop run with fuel `g`: as `RuleSpec`, but a return of
`true` need not move the cursor, and the fuel runs out only if `g` is at most the number of
remaining tokens. -/
def LoopSpec (g : Nat) (m : M Bool) : Prop :=
  ∀ p, (m p).Holds
    (fun b p' => Follows p p' ∧ (b = true → p'.context = p.context))
    (fun p' => Follows p p') (p.context = []) (g ≤ p.remaining)

/-- The state `p'` differs from `p` by a cursor moved `k` tokens forward, and possibly in
the arena and the diagnostic sinks: the token list and the context stack are the same. -/
def Moves (k : Nat) (p p' : Parser) : Prop :=
  p'.tokens = p.tokens ∧ p'.currentToken = p.currentToken + k ∧ p'.context = p.context

/-- More fuel changes nothing once there is enough: wherever `m` does not run out of fuel,
`m'` has the same outcome. -/
def FuelLe {α : Type} (m m' : M α) : Prop :=
  ∀ p, m p = Res.outOfFuel ∨ m' p = m p



/-- The kinds of the nodes that the rules enter below the root: `ParseRepeat` enters a
`Repeat` node, `ParseFunction` a `Function` node, `AddArguments` an `ArgList` node and
`AddStatementBlock` a `StatementBlock` node. -/
def IsEntered : EToken → Bool
  | EToken.Repeat => true
  | EToken.Function => true
  | EToken.ArgList => true
  | EToken.StatementBlock => true
  | _ => false

/-- A context stack of open nodes, bottom first: every entry is a node of the arena, and
every entry above the bottom one is a node of an entered kind that is a child of the entry
below it. -/
def OpenChain (heap : List AstNode) : List AstNodePtr → Prop
  | [] => True
  | [a] => a < heap.length
  | a :: b :: rest =>
    (∃ n : AstNode, heap[a]? = some n ∧ b ∈ n.children) ∧
    (∃ m : AstNode, heap[b]? = some m ∧ IsEntered m.kind = true) ∧
    OpenChain heap (b :: rest)

theorem Parser.New_eq (lexer : List Token) :
    Parser.New lexer = Res.ret ()
      { tokens := lexer.filter (fun t => t.type ≠ EToken.WhiteSpace), context := [0],
        heap := [⟨EToken.Start, none, []⟩] } := by
  simp [Parser.New, SetLexer, EnterNode, AstNode.New, bind, M.bind]

theorem run_repeat_move (k0 k2 k3 k5 sn sm : StringSplice) (fuel : Nat) :
    (Parser.New [⟨EToken.Repeat, k0⟩, ⟨EToken.Number, sn⟩, ⟨EToken.OpenBrace, k2⟩,
        ⟨EToken.Move, k3⟩, ⟨EToken.Number, sm⟩, ⟨EToken.CloseBrace, k5⟩]).andThen
      (fun _ => Run (fuel + 4)) = Res.ret true
      { tokens := [⟨EToken.Repeat, k0⟩, ⟨EToken.Number, sn⟩, ⟨EToken.OpenBrace, k2⟩,
          ⟨EToken.Move, k3⟩, ⟨EToken.Number, sm⟩, ⟨EToken.CloseBrace, k5⟩],
        currentToken := 6, context := [0],
        heap := [⟨EToken.Start, none, [1]⟩, ⟨EToken.Repeat, none, [2, 3]⟩,
          ⟨EToken.Number, some ⟨EToken.Number, sn⟩, []⟩, ⟨EToken.Move, none, [4]⟩,
          ⟨EToken.Number, some ⟨EToken.Number, sm⟩, []⟩] } := by
  simp [Parser.New, Res.andThen, Run, ParseStatements, ParseStatement, AtEnd, SetLexer,
    EnterNode, AstNode.New, bind, M.bind, pure, CurrentTokenType, CurrentToken, TokensAt,
    AddChildToken, AddChild, ContextBack, AstNode.AddChild, AstNode.NewToken, IncCurrentToken,
    HasSucceeded, heapAddChild, ParseRepeat, Peek, NextToken, ParseStatementBlock, Expect,
    CurrentTokenTypeIs, ParseMove, AddParameterisedCommand, LeaveNode]

theorem run_repeat_unclosed (k0 k2 k3 sn sm : StringSplice) (fuel : Nat) :
    (Parser.New [⟨EToken.Repeat, k0⟩, ⟨EToken.Number, sn⟩, ⟨EToken.OpenBrace, k2⟩,
        ⟨EToken.Move, k3⟩, ⟨EToken.Number, sm⟩]).andThen
      (fun _ => Run (fuel + 3)) = Res.ret false
      { tokens := [⟨EToken.Repeat, k0⟩, ⟨EToken.Number, sn⟩, ⟨EToken.OpenBrace, k2⟩,
          ⟨EToken.Move, k3⟩, ⟨EToken.Number, sm⟩],
        currentToken := 5, context := [0, 1],
        heap := [⟨EToken.Start, none, [1]⟩, ⟨EToken.Repeat, none, [2, 3]⟩,
          ⟨EToken.Number, some ⟨EToken.Number, sn⟩, []⟩, ⟨EToken.Move, none, [4]⟩,
          ⟨EToken.Number, some ⟨EToken.Number, sm⟩, []⟩],
        errors := [Diag.what "out_of_range"] } := by
  simp [Parser.New, Res.andThen, Run, ParseStatements, ParseStatement, AtEnd, SetLexer,
    EnterNode, AstNode.New, bind, M.bind, pure, CurrentTokenType, CurrentToken, TokensAt,
    AddChildToken, AddChild, ContextBack, AstNode.AddChild, AstNode.NewToken, IncCurrentToken,
    HasSucceeded, heapAddChild, ParseRepeat, Peek, NextToken, ParseStatementBlock, Expect,
    CurrentTokenTypeIs, ParseMove, AddParameterisedCommand, LeaveNode]

theorem run_function_two_args (k0 k2 k4 k6 k7 k8 k9 sf sa sb : StringSplice) (fuel : Nat) :
    (Parser.New [⟨EToken.Function, k0⟩, ⟨EToken.Identifier, sf⟩, ⟨EToken.OpenParan, k2⟩,
        ⟨EToken.Identifier, sa⟩, ⟨EToken.Comma, k4⟩, ⟨EToken.Identifier, sb⟩,
        ⟨EToken.CloseParan, k6⟩, ⟨EToken.OpenBrace, k7⟩, ⟨EToken.PenUp, k8⟩,
        ⟨EToken.CloseBrace, k9⟩]).andThen
      (fun _ => Run (fuel + 2)) = Res.ret false
      { tokens := [⟨EToken.Function, k0⟩, ⟨EToken.Identifier, sf⟩, ⟨EToken.OpenParan, k2⟩,
          ⟨EToken.Identifier, sa⟩, ⟨EToken.Comma, k4⟩, ⟨EToken.Identifier, sb⟩,
          ⟨EToken.CloseParan, k6⟩, ⟨EToken.OpenBrace, k7⟩, ⟨EToken.PenUp, k8⟩,
          ⟨EToken.CloseBrace, k9⟩],
        currentToken := 4, context := [0, 1, 3],
        heap := [⟨EToken.Start, none, [1]⟩, ⟨EToken.Function, none, [2, 3]⟩,
          ⟨EToken.Identifier, some ⟨EToken.Identifier, sf⟩, []⟩, ⟨EToken.ArgList, none, [4]⟩,
          ⟨EToken.Identifier, some (Token.ofType EToken.Identifier), []⟩],
        errors := [Diag.expected EToken.CloseParan EToken.Comma,
          Diag.text "Failed to parse arguments"],
        lexerErrors := [Diag.text "Close parenthesis expected"] } := by
  simp [Parser.New, Res.andThen, Run, ParseStatements, ParseStatement, AtEnd, SetLexer,
    EnterNode, AstNode.New, bind, M.bind, pure, CurrentTokenType, CurrentToken, TokensAt,
    AddChildEToken, AddChildToken, AddChild, ContextBack, AstNode.AddChild, AstNode.NewToken,
    IncCurrentToken, HasSucceeded, heapAddChild, Peek, NextToken, Expect, CurrentTokenTypeIs,
    ParseFunction, AddArguments, AddArgumentsLoop, Token.ofType, FailWith, Fail, LexerFail]

theorem run_function_no_args (k0 k2 k3 k4 k5 sf : StringSplice) (fuel : Nat) :
    (Parser.New [⟨EToken.Function, k0⟩, ⟨EToken.Identifier, sf⟩, ⟨EToken.OpenParan, k2⟩,
        ⟨EToken.CloseParan, k3⟩, ⟨EToken.OpenBrace, k4⟩, ⟨EToken.CloseBrace, k5⟩]).andThen
      (fun _ => Run (fuel + 2)) = Res.ret false
      { tokens := [⟨EToken.Function, k0⟩, ⟨EToken.Identifier, sf⟩, ⟨EToken.OpenParan, k2⟩,
          ⟨EToken.CloseParan, k3⟩, ⟨EToken.OpenBrace, k4⟩, ⟨EToken.CloseBrace, k5⟩],
        currentToken := 4, context := [0, 1, 3],
        heap := [⟨EToken.Start, none, [1]⟩, ⟨EToken.Function, none, [2, 3]⟩,
          ⟨EToken.Identifier, some ⟨EToken.Identifier, sf⟩, []⟩, ⟨EToken.ArgList, none, [4]⟩,
          ⟨EToken.Identifier, some (Token.ofType EToken.Identifier), []⟩],
        errors := [Diag.expected EToken.CloseParan EToken.OpenBrace,
          Diag.text "Failed to parse arguments"],
        lexerErrors := [Diag.text "Close parenthesis expected"] } := by
  simp [Parser.New, Res.andThen, Run, ParseStatements, ParseStatement, AtEnd, SetLexer,
    EnterNode, AstNode.New, bind, M.bind, pure, CurrentTokenType, CurrentToken, TokensAt,
    AddChildEToken, AddChildToken, AddChild, ContextBack, AstNode.AddChild, AstNode.NewToken,
    IncCurrentToken, HasSucceeded, heapAddChild, Peek, NextToken, Expect, CurrentTokenTypeIs,
    ParseFunction, AddArguments, AddArgumentsLoop, Token.ofType, FailWith, Fail, LexerFail]

theorem run_function_paren_arg (k0 k2 k3 k4 k5 k6 sf : StringSplice) (fuel : Nat) :
    (Parser.New [⟨EToken.Function, k0⟩, ⟨EToken.Identifier, sf⟩, ⟨EToken.OpenParan, k2⟩,
        ⟨EToken.OpenParan, k3⟩, ⟨EToken.CloseParan, k4⟩, ⟨EToken.OpenBrace, k5⟩,
        ⟨EToken.CloseBrace, k6⟩]).andThen
      (fun _ => Run (fuel + 3)) = Res.ret true
      { tokens := [⟨EToken.Function, k0⟩, ⟨EToken.Identifier, sf⟩, ⟨EToken.OpenParan, k2⟩,
          ⟨EToken.OpenParan, k3⟩, ⟨EToken.CloseParan, k4⟩, ⟨EToken.OpenBrace, k5⟩,
          ⟨EToken.CloseBrace, k6⟩],
        currentToken := 7, context := [0],
        heap := [⟨EToken.Start, none, [1]⟩, ⟨EToken.Function, none, [2, 3, 5]⟩,
          ⟨EToken.Identifier, some ⟨EToken.Identifier, sf⟩, []⟩, ⟨EToken.ArgList, none, [4]⟩,
          ⟨EToken.Identifier, some (Token.ofType EToken.Identifier), []⟩,
          ⟨EToken.StatementBlock, none, []⟩] } := by
  simp [Parser.New, Res.andThen, Run, ParseStatements, ParseStatement, AtEnd, SetLexer,
    EnterNode, AstNode.New, bind, M.bind, pure, CurrentTokenType, CurrentToken, TokensAt,
    AddChildEToken, AddChildToken, AddChild, ContextBack, AstNode.AddChild, AstNode.NewToken,
    IncCurrentToken, HasSucceeded, heapAddChild, Peek, NextToken, Expect, CurrentTokenTypeIs,
    ParseFunction, AddArguments, AddArgumentsLoop, Token.ofType, AddStatementBlock, ParseStatementBlock,
    LeaveNode]

theorem run_function_brace_arg (k0 k2 k3 k4 k5 k6 sf : StringSplice) (fuel : Nat) :
    (Parser.New [⟨EToken.Function, k0⟩, ⟨EToken.Identifier, sf⟩, ⟨EToken.OpenParan, k2⟩,
        ⟨EToken.OpenBrace, k3⟩, ⟨EToken.CloseParan, k4⟩, ⟨EToken.OpenBrace, k5⟩,
        ⟨EToken.CloseBrace, k6⟩]).andThen
      (fun _ => Run (fuel + 3)) = Res.ret true
      { tokens := [⟨EToken.Function, k0⟩, ⟨EToken.Identifier, sf⟩, ⟨EToken.OpenParan, k2⟩,
          ⟨EToken.OpenBrace, k3⟩, ⟨EToken.CloseParan, k4⟩, ⟨EToken.OpenBrace, k5⟩,
          ⟨EToken.CloseBrace, k6⟩],
        currentToken := 7, context := [0],
        heap := [⟨EToken.Start, none, [1]⟩, ⟨EToken.Function, none, [2, 3, 5]⟩,
          ⟨EToken.Identifier, some ⟨EToken.Identifier, sf⟩, []⟩, ⟨EToken.ArgList, none, [4]⟩,
          ⟨EToken.Identifier, some (Token.ofType EToken.Identifier), []⟩,
          ⟨EToken.StatementBlock, none, []⟩] } := by
  simp [Parser.New, Res.andThen, Run, ParseStatements, ParseStatement, AtEnd, SetLexer,
    EnterNode, AstNode.New, bind, M.bind, pure, CurrentTokenType, CurrentToken, TokensAt,
    AddChildEToken, AddChildToken, AddChild, ContextBack, AstNode.AddChild, AstNode.NewToken,
    IncCurrentToken, HasSucceeded, heapAddChild, Peek, NextToken, Expect, CurrentTokenTypeIs,
    ParseFunction, AddArguments, AddArgumentsLoop, Token.ofType, AddStatementBlock, ParseStatementBlock,
    LeaveNode]

theorem run_delta_red_brace (k0 k1 k2 : StringSplice) (fuel : Nat) :
    (Parser.New [⟨EToken.Delta, k0⟩, ⟨EToken.Red, k1⟩, ⟨EToken.OpenBrace, k2⟩]).andThen
      (fun _ => Run (fuel + 2)) = Res.ret true
      { tokens := [⟨EToken.Delta, k0⟩, ⟨EToken.Red, k1⟩, ⟨EToken.OpenBrace, k2⟩],
        currentToken := 3, context := [0],
        heap := [⟨EToken.Start, none, [1]⟩, ⟨EToken.Delta, none, [2, 3]⟩,
          ⟨EToken.Red, some ⟨EToken.Red, k1⟩, []⟩,
          ⟨EToken.OpenBrace, some ⟨EToken.OpenBrace, k2⟩, []⟩] } := by
  simp [Parser.New, Res.andThen, Run, ParseStatements, ParseStatement, AtEnd, SetLexer,
    EnterNode, AstNode.New, bind, M.bind, pure, CurrentTokenType, CurrentToken, TokensAt,
    AddChild, ContextBack, AstNode.AddChild, AstNode.AddChildToken, AstNode.NewToken,
    IncCurrentToken, HasSucceeded, heapAddChild, ParseDelta, AddDelta, NextToken]

theorem run_pendown (fuel : Nat) :
    (Parser.New [⟨EToken.PenDown, ⟨0, 7⟩⟩]).andThen (fun _ => Run (fuel + 2)) = Res.ret true
      { tokens := [⟨EToken.PenDown, ⟨0, 7⟩⟩], currentToken := 1, context := [0],
        heap := [⟨EToken.Start, none, [1]⟩,
          ⟨EToken.PenDown, some (Token.ofType EToken.PenDown), []⟩] } := by
  simp [Parser.New, Res.andThen, Run, ParseStatements, ParseStatement, AtEnd, SetLexer,
    EnterNode, AstNode.New, bind, M.bind, pure, CurrentTokenType, CurrentToken, TokensAt,
    AddChildEToken, AddChildToken, AddChild, ContextBack, AstNode.AddChild, AstNode.NewToken,
    IncCurrentToken, HasSucceeded, heapAddChild, Token.ofType]

theorem run_close_brace (fuel : Nat) :
    (Parser.New [⟨EToken.CloseBrace, ⟨0, 1⟩⟩]).andThen (fun _ => Run (fuel + 1)) = Res.ret true
      { tokens := [⟨EToken.CloseBrace, ⟨0, 1⟩⟩], currentToken := 0, context := [0],
        heap := [⟨EToken.Start, none, []⟩] } := by
  simp [Parser.New, Res.andThen, Run, ParseStatements, ParseStatement, AtEnd, SetLexer,
    EnterNode, AstNode.New, bind, M.bind, pure, CurrentTokenType, CurrentToken, TokensAt,
    HasSucceeded]

theorem run_delta_pendown (fuel : Nat) :
    (Parser.New [⟨EToken.Delta, ⟨0, 5⟩⟩, ⟨EToken.PenDown, ⟨6, 7⟩⟩]).andThen
      (fun _ => Run (fuel + 1)) = Res.ret true
      { tokens := [⟨EToken.Delta, ⟨0, 5⟩⟩, ⟨EToken.PenDown, ⟨6, 7⟩⟩], currentToken := 1,
        context := [0], heap := [⟨EToken.Start, none, []⟩] } := by
  simp [Parser.New, Res.andThen, Run, ParseStatements, ParseStatement, AtEnd, SetLexer,
    EnterNode, AstNode.New, bind, M.bind, pure, CurrentTokenType, CurrentToken, TokensAt,
    HasSucceeded, ParseDelta, NextToken]

theorem run_pendown_close_brace (fuel : Nat) :
    (Parser.New [⟨EToken.PenDown, ⟨0, 7⟩⟩, ⟨EToken.CloseBrace, ⟨8, 1⟩⟩]).andThen
      (fun _ => Run (fuel + 2)) = Res.ret true
      { tokens := [⟨EToken.PenDown, ⟨0, 7⟩⟩, ⟨EToken.CloseBrace, ⟨8, 1⟩⟩], currentToken := 1,
        context := [0],
        heap := [⟨EToken.Start, none, [1]⟩,
          ⟨EToken.PenDown, some (Token.ofType EToken.PenDown), []⟩] } := by
  simp [Parser.New, Res.andThen, Run, ParseStatements, ParseStatement, AtEnd, SetLexer,
    EnterNode, AstNode.New, bind, M.bind, pure, CurrentTokenType, CurrentToken, TokensAt,
    AddChildEToken, AddChildToken, AddChild, ContextBack, AstNode.AddChild, AstNode.NewToken,
    IncCurrentToken, HasSucceeded, heapAddChild, Token.ofType]

theorem andThen_New {fuel : Nat} {lexer : List Token} {p' : Parser}
    (h : (Parser.New lexer).andThen (fun _ => Run fuel) = Res.ret true p') :
    Run fuel
      { tokens := lexer.filter (fun t => t.type ≠ EToken.WhiteSpace), context := [0],
        heap := [⟨EToken.Start, none, []⟩] } = Res.ret true p' := by
  rw [Parser.New_eq] at h
  exact h

/-! ## Inversion of the monad and of the primitive member functions -/

theorem bind_ret {α β : Type} {m : M α} {f : α → M β} {p p' : Parser} {b : β}
    (h : (m >>= f) p = Res.ret b p') : ∃ a p1, m p = Res.ret a p1 ∧ f a p1 = Res.ret b p' := by
  change M.bind m f p = _ at h
  unfold M.bind at h
  cases hm : m p with
  | ret a p1 => rw [hm] at h; exact ⟨a, p1, rfl, h⟩
  | throw msg p1 => rw [hm] at h; cases h
  | undef => rw [hm] at h; cases h
  | outOfFuel => rw [hm] at h; cases h

theorem pure_ret {α : Type} {a b : α} {p p' : Parser} (h : (pure a : M α) p = Res.ret b p') :
    b = a ∧ p' = p := by
  cases h; exact ⟨rfl, rfl⟩

theorem getElem?_lt {l : List Token} {i : Nat} {t : Token} (h : l[i]? = some t) :
    i < l.length := by
  by_contra hc
  rw [List.getElem?_eq_none (by omega)] at h
  cases h

theorem HeapExt.hrefl (h : List AstNode) : HeapExt h h :=
  fun _ n hn => ⟨n, hn, rfl, rfl⟩

theorem HeapExt.htrans {h1 h2 h3 : List AstNode} (a : HeapExt h1 h2) (b : HeapExt h2 h3) :
    HeapExt h1 h3 := by
  intro i n hn
  obtain ⟨n2, hn2, k2, t2⟩ := a i n hn
  obtain ⟨n3, hn3, k3, t3⟩ := b i n2 hn2
  exact ⟨n3, hn3, k3.trans k2, t3.trans t2⟩

theorem HeapExt.append (h : List AstNode) (l : List AstNode) : HeapExt h (h ++ l) := by
  intro i n hn
  have hi : i < h.length := by
    by_contra hc
    rw [List.getElem?_eq_none (by omega)] at hn
    cases hn
  exact ⟨n, by rw [List.getElem?_append_left hi]; exact hn, rfl, rfl⟩

theorem HeapExt.addChild (h : List AstNode) (parent child : AstNodePtr) :
    HeapExt h (heapAddChild h parent child) := by
  induction h generalizing parent with
  | nil => intro i n hn; simp at hn
  | cons a rest ih =>
    intro i n hn
    cases parent with
    | zero =>
      cases i with
      | zero =>
        simp at hn
        subst hn
        exact ⟨{ a with children := a.children ++ [child] }, by simp [heapAddChild], rfl, rfl⟩
      | succ j => exact ⟨n, by simpa [heapAddChild] using hn, rfl, rfl⟩
    | succ q =>
      cases i with
      | zero => exact ⟨n, by simpa [heapAddChild] using hn, rfl, rfl⟩
      | succ j =>
        obtain ⟨n', hn', hk⟩ := ih q j n (by simpa using hn)
        exact ⟨n', by simpa [heapAddChild] using hn', hk⟩

theorem Bal.brefl (p : Parser) : Bal p p :=
  ⟨rfl, HeapExt.hrefl _, fun h => ⟨h, rfl, fun hl => hl⟩⟩

theorem Bal.btrans {p p1 p2 : Parser} (h1 : Bal p p1) (h2 : Bal p1 p2) : Bal p p2 := by
  obtain ⟨t1, x1, e1⟩ := h1
  obtain ⟨t2, x2, e2⟩ := h2
  refine ⟨t2.trans t1, x1.htrans x2, fun h => ?_⟩
  obtain ⟨a2, c2, l2⟩ := e2 h
  obtain ⟨a1, c1, l1⟩ := e1 a2
  exact ⟨a1, c2.trans c1, fun hl => by rw [t1] at l2; exact l2 (l1 hl)⟩

theorem Expect_ret {type : EToken} {p p' : Parser} {b : Bool}
    (h : Expect type p = Res.ret b p') :
    ∃ t, p.tokens[p.currentToken]? = some t ∧
      ((b = true ∧ t.type = type ∧ p' = { p with currentToken := p.currentToken + 1 }) ∨
       (b = false ∧ t.type ≠ type ∧
          p' = { p with errors := p.errors ++ [Diag.expected type t.type] })) := by
  cases ht : p.tokens[p.currentToken]? with
  | none =>
    simp [Expect, CurrentTokenTypeIs, CurrentTokenType, CurrentToken, TokensAt, bind, M.bind,
      ht] at h
  | some t =>
    by_cases hty : t.type = type <;>
    simp [Expect, CurrentTokenTypeIs, CurrentTokenType, CurrentToken, TokensAt, FailWith,
      IncCurrentToken, bind, M.bind, pure, ht, hty] at h <;>
    simp [h, hty]

theorem NextToken_ret {p p' : Parser} {t : Token} (h : NextToken p = Res.ret t p') :
    (p.tokens.length ≤ p.currentToken ∧ t = Token.default ∧
        p' = { p with errors := p.errors ++ [Diag.text "Token expected"] }) ∨
    (p.currentToken < p.tokens.length ∧ p.tokens[p.currentToken + 1]? = some t ∧
        p' = { p with currentToken := p.currentToken + 1 }) := by
  by_cases hend : p.tokens.length ≤ p.currentToken
  · simp [NextToken, AtEnd, FailWith, bind, M.bind, pure, hend] at h
    exact Or.inl ⟨hend, h.1.symm, h.2.symm⟩
  · cases ht : p.tokens[p.currentToken + 1]? with
    | none => simp [NextToken, AtEnd, TokensAt, bind, M.bind, hend, ht] at h
    | some t' =>
      simp [NextToken, AtEnd, TokensAt, bind, M.bind, hend, ht] at h
      exact Or.inr ⟨by omega, by rw [h.1], h.2.symm⟩

theorem Peek_ret {type : EToken} {p p' : Parser} {b : Bool} (h : Peek type p = Res.ret b p') :
    p' = p ∧ (b = true → ∃ t, p.tokens[p.currentToken + 1]? = some t ∧ t.type = type) := by
  unfold Peek at h
  cases ht : p.tokens[p.currentToken + 1]? with
  | none => rw [ht] at h; cases h; simp
  | some t =>
    rw [ht] at h
    cases h
    exact ⟨rfl, fun hb => ⟨t, rfl, by simpa using hb⟩⟩

theorem New_step {kind : EToken} {p p' : Parser} {node : AstNodePtr}
    (h : AstNode.New kind p = Res.ret node p') :
    ∃ h', HeapExt p.heap h' ∧ p' = { p with heap := h' } := by
  simp only [AstNode.New, Res.ret.injEq] at h
  exact ⟨_, HeapExt.append _ _, h.2.symm⟩

theorem NewToken_step {token : Token} {p p' : Parser} {node : AstNodePtr}
    (h : AstNode.NewToken token p = Res.ret node p') :
    ∃ h', HeapExt p.heap h' ∧ p' = { p with heap := h' } := by
  simp only [AstNode.NewToken, Res.ret.injEq] at h
  exact ⟨_, HeapExt.append _ _, h.2.symm⟩

theorem NodeAddChild_step {parent child : AstNodePtr} {p p' : Parser} {u : Unit}
    (h : AstNode.AddChild parent child p = Res.ret u p') :
    ∃ h', HeapExt p.heap h' ∧ p' = { p with heap := h' } := by
  simp only [AstNode.AddChild, Res.ret.injEq, true_and] at h
  exact ⟨_, HeapExt.addChild _ _ _, h.symm⟩

theorem NodeAddChildToken_step {parent : AstNodePtr} {token : Token} {p p' : Parser} {u : Unit}
    (h : AstNode.AddChildToken parent token p = Res.ret u p') :
    ∃ h', HeapExt p.heap h' ∧ p' = { p with heap := h' } := by
  unfold AstNode.AddChildToken at h
  replace h := bind_ret h
  obtain ⟨child, p1, h1, h⟩ := h
  obtain ⟨g1, x1, rfl⟩ := NewToken_step h1
  obtain ⟨g2, x2, rfl⟩ := NodeAddChild_step h
  exact ⟨g2, x1.htrans x2, rfl⟩

theorem AddChild_step {child : AstNodePtr} {p p' : Parser} {b : Bool}
    (h : AddChild child p = Res.ret b p') :
    b = true ∧ ∃ h', HeapExt p.heap h' ∧ p' = { p with heap := h' } := by
  cases hc : p.context.getLast? with
  | none => simp [AddChild, ContextBack, bind, M.bind, hc] at h
  | some top =>
    simp [AddChild, ContextBack, AstNode.AddChild, bind, M.bind, pure, hc] at h
    exact ⟨h.1, _, HeapExt.addChild _ top child, h.2.symm⟩

theorem AddChildToken_step {token : Token} {p p' : Parser} {b : Bool}
    (h : AddChildToken token p = Res.ret b p') :
    b = true ∧ ∃ h', HeapExt p.heap h' ∧
      p' = { p with currentToken := p.currentToken + 1, heap := h' } := by
  unfold AddChildToken at h
  replace h := bind_ret h
  obtain ⟨_, p1, h1, h⟩ := h
  replace h := bind_ret h
  obtain ⟨node, p2, h2, h⟩ := h
  simp only [IncCurrentToken, Res.ret.injEq, true_and] at h1
  subst h1
  obtain ⟨g1, x1, rfl⟩ := NewToken_step h2
  obtain ⟨hb, g2, x2, rfl⟩ := AddChild_step h
  exact ⟨hb, g2, x1.htrans x2, rfl⟩

theorem EnterNode_step {node : AstNodePtr} {p p' : Parser} {u : Unit}
    (h : EnterNode node p = Res.ret u p') :
    ∃ h', HeapExt p.heap h' ∧ p' = { p with heap := h', context := p.context ++ [node] } := by
  unfold EnterNode at h
  cases hc : p.context.getLast? with
  | none => rw [hc] at h; cases h; exact ⟨_, HeapExt.hrefl _, rfl⟩
  | some top => rw [hc] at h; cases h; exact ⟨_, HeapExt.addChild _ top node, rfl⟩

theorem LeaveNode_ret {p p' : Parser} {u : Unit} (h : LeaveNode p = Res.ret u p') :
    p' = { p with context := p.context.dropLast } := by
  unfold LeaveNode at h
  cases hc : p.context with
  | nil => rw [hc] at h; simp at h
  | cons a l => rw [hc] at h; simp only [Res.ret.injEq, true_and] at h; exact h.symm

/-! ## Every rule is balanced -/

theorem Expect_strict (type : EToken) : Strict (Expect type) := by
  intro p b p' h
  obtain ⟨t, ht, ⟨rfl, -, rfl⟩ | ⟨rfl, -, rfl⟩⟩ := Expect_ret h
  · have := getElem?_lt ht
    exact ⟨⟨rfl, HeapExt.hrefl _, fun he => ⟨he, rfl, fun _ => this⟩⟩, by simp⟩
  · exact ⟨⟨rfl, HeapExt.hrefl _, fun he => by simp at he⟩, by simp⟩

theorem ParseStatementBlock_strict (ps : M Bool) (hps : Strict ps) :
    Strict (ParseStatementBlock ps) := by
  intro p b p' h
  unfold ParseStatementBlock at h
  replace h := bind_ret h
  obtain ⟨b1, p1, h1, h⟩ := h
  obtain ⟨B1, S1⟩ := Expect_strict _ _ _ _ h1
  cases b1
  · obtain ⟨rfl, rfl⟩ := pure_ret h
    exact ⟨B1, S1⟩
  · replace h := bind_ret h
    obtain ⟨b2, p2, h2, h⟩ := h
    obtain ⟨B2, S2⟩ := hps _ _ _ h2
    cases b2
    · obtain ⟨rfl, rfl⟩ := pure_ret h
      exact ⟨B1.btrans B2, S2⟩
    · replace h := bind_ret h
      obtain ⟨b3, p3, h3, h⟩ := h
      obtain ⟨B3, S3⟩ := Expect_strict _ _ _ _ h3
      cases b3
      · obtain ⟨rfl, rfl⟩ := pure_ret h
        exact ⟨(B1.btrans B2).btrans B3, S3⟩
      · obtain ⟨rfl, rfl⟩ := pure_ret h
        exact ⟨(B1.btrans B2).btrans B3, by simp⟩

theorem AddStatementBlock_strict (ps : M Bool) (hps : Strict ps) :
    Strict (AddStatementBlock ps) := by
  intro p b p' h
  unfold AddStatementBlock at h
  replace h := bind_ret h
  obtain ⟨node, p1, h1, h⟩ := h
  obtain ⟨g1, x1, rfl⟩ := New_step h1
  replace h := bind_ret h
  obtain ⟨_, p2, h2, h⟩ := h
  obtain ⟨g2, x2, rfl⟩ := EnterNode_step h2
  replace h := bind_ret h
  obtain ⟨b3, p3, h3, h⟩ := h
  obtain ⟨⟨T3, X3, E3⟩, S3⟩ := ParseStatementBlock_strict ps hps _ _ _ h3
  cases b3
  · obtain ⟨rfl, rfl⟩ := pure_ret h
    exact ⟨⟨T3, (x1.htrans x2).htrans X3, fun he => absurd he (S3 rfl)⟩, S3⟩
  · replace h := bind_ret h
    obtain ⟨_, p4, h4, h⟩ := h
    have := LeaveNode_ret h4
    subst this
    obtain ⟨rfl, rfl⟩ := pure_ret h
    refine ⟨⟨T3, (x1.htrans x2).htrans X3, fun he => ?_⟩, by simp⟩
    obtain ⟨e, c, l⟩ := E3 he
    exact ⟨e, by simp [c], l⟩

theorem AddArgumentsLoop_step (fuel : Nat) :
    ∀ (p p' : Parser) (u : Unit), AddArgumentsLoop fuel p = Res.ret u p' →
      p'.tokens = p.tokens ∧ p'.context = p.context ∧ HeapExt p.heap p'.heap ∧
        (p'.errors = [] → p.errors = []) := by
  induction fuel with
  | zero => intro p p' u h; cases h
  | succ fuel ih =>
    intro p p' u h
    unfold AddArgumentsLoop at h
    replace h := bind_ret h
    obtain ⟨b1, p1, h1, h⟩ := h
    obtain ⟨rfl, g1, x1, rfl⟩ := AddChildToken_step h1
    replace h := bind_ret h
    obtain ⟨b2, p2, h2, h⟩ := h
    obtain ⟨rfl, -⟩ := Peek_ret h2
    cases b2
    · obtain ⟨-, rfl⟩ := pure_ret h
      exact ⟨rfl, rfl, x1, id⟩
    · replace h := bind_ret h
      obtain ⟨tok, p3, h3, h⟩ := h
      obtain ⟨T, C, X, E⟩ := ih _ _ _ h
      rcases NextToken_ret h3 with ⟨-, -, rfl⟩ | ⟨-, -, rfl⟩
      · exact ⟨T, C, x1.htrans X, fun he => by simpa using E he⟩
      · exact ⟨T, C, x1.htrans X, E⟩

theorem AddArguments_strict (fuel : Nat) : Strict (AddArguments fuel) := by
  intro p b p' h
  unfold AddArguments at h
  replace h := bind_ret h
  obtain ⟨b1, p1, h1, h⟩ := h
  obtain ⟨⟨T1, X1, E1⟩, S1⟩ := Expect_strict _ _ _ _ h1
  cases b1
  · replace h := bind_ret h
    obtain ⟨_, p2, h2, h⟩ := h
    simp only [FailWith, Res.ret.injEq, true_and] at h2
    subst h2
    obtain ⟨rfl, rfl⟩ := pure_ret h
    exact ⟨⟨T1, X1, fun he => by simp at he⟩, by simp⟩
  · replace h := bind_ret h
    obtain ⟨args, p2, h2, h⟩ := h
    obtain ⟨g2, x2, rfl⟩ := New_step h2
    replace h := bind_ret h
    obtain ⟨_, p3, h3, h⟩ := h
    obtain ⟨g3, x3, rfl⟩ := EnterNode_step h3
    replace h := bind_ret h
    obtain ⟨_, p4, h4, h⟩ := h
    obtain ⟨T4, C4, X4, E4⟩ := AddArgumentsLoop_step fuel _ _ _ h4
    replace h := bind_ret h
    obtain ⟨b5, p5, h5, h⟩ := h
    have X : HeapExt p.heap p4.heap := ((X1.htrans x2).htrans x3).htrans X4
    obtain ⟨t, ht, ⟨rfl, -, rfl⟩ | ⟨rfl, -, rfl⟩⟩ := Expect_ret h5
    · replace h := bind_ret h
      obtain ⟨_, p6, h6, h⟩ := h
      have := LeaveNode_ret h6
      subst this
      obtain ⟨rfl, rfl⟩ := pure_ret h
      have hlt := getElem?_lt ht
      refine ⟨⟨T4.trans T1, X, fun he => ?_⟩, by simp⟩
      obtain ⟨e, c, -⟩ := E1 (E4 he)
      refine ⟨e, ?_, fun _ => ?_⟩
      · show p4.context.dropLast = p.context
        rw [C4]
        simp [c]
      · show p4.currentToken + 1 ≤ p.tokens.length
        rw [T4, T1] at hlt
        exact hlt
    · replace h := bind_ret h
      obtain ⟨_, p6, h6, h⟩ := h
      simp only [LexerFail, Res.ret.injEq, true_and] at h6
      subst h6
      obtain ⟨rfl, rfl⟩ := pure_ret h
      exact ⟨⟨T4.trans T1, X, fun he => by simp at he⟩, by simp⟩

theorem AddParameterisedCommand_strict (type : EToken) :
    Strict (AddParameterisedCommand type) := by
  intro p b p' h
  unfold AddParameterisedCommand at h
  replace h := bind_ret h
  obtain ⟨b1, p1, h1, h⟩ := h
  obtain ⟨rfl, hpeek⟩ := Peek_ret h1
  cases b1
  · replace h := bind_ret h
    obtain ⟨_, p2, h2, h⟩ := h
    simp only [FailWith, Res.ret.injEq, true_and] at h2
    subst h2
    obtain ⟨rfl, rfl⟩ := pure_ret h
    exact ⟨⟨rfl, HeapExt.hrefl _, fun he => by simp at he⟩, by simp⟩
  · obtain ⟨t1, ht1, -⟩ := hpeek rfl
    have hlt := getElem?_lt ht1
    replace h := bind_ret h
    obtain ⟨node, p2, h2, h⟩ := h
    obtain ⟨g2, x2, rfl⟩ := New_step h2
    replace h := bind_ret h
    obtain ⟨tok, p3, h3, h⟩ := h
    replace h := bind_ret h
    obtain ⟨leaf, p4, h4, h⟩ := h
    replace h := bind_ret h
    obtain ⟨_, p5, h5, h⟩ := h
    replace h := bind_ret h
    obtain ⟨_, p6, h6, h⟩ := h
    replace h := bind_ret h
    obtain ⟨_, p7, h7, h⟩ := h
    obtain ⟨rfl, rfl⟩ := pure_ret h
    obtain ⟨g4, x4, rfl⟩ := NewToken_step h4
    obtain ⟨g5, x5, rfl⟩ := NodeAddChild_step h5
    simp only [IncCurrentToken, Res.ret.injEq, true_and] at h6
    subst h6
    obtain ⟨-, g7, x7, rfl⟩ := AddChild_step h7
    rcases NextToken_ret h3 with ⟨-, -, rfl⟩ | ⟨-, -, rfl⟩
    · exact ⟨⟨rfl, ((x2.htrans x4).htrans x5).htrans x7, fun he => by simp at he⟩, by simp⟩
    · exact ⟨⟨rfl, ((x2.htrans x4).htrans x5).htrans x7, fun he => ⟨he, rfl, fun _ => hlt⟩⟩,
        by simp⟩

theorem ParseRepeat_strict (ps : M Bool) (hps : Strict ps) : Strict (ParseRepeat ps) := by
  intro p b p' h
  unfold ParseRepeat at h
  replace h := bind_ret h
  obtain ⟨b1, p1, h1, h⟩ := h
  obtain ⟨rfl, hpeek⟩ := Peek_ret h1
  cases b1
  · simp only [Fail] at h
    obtain ⟨rfl, rfl⟩ := Res.ret.inj h
    exact ⟨⟨rfl, HeapExt.hrefl _, fun he => by simp at he⟩, by simp⟩
  · obtain ⟨t1, ht1, -⟩ := hpeek rfl
    have hlt := getElem?_lt ht1
    replace h := bind_ret h
    obtain ⟨node, p2, h2, h⟩ := h
    obtain ⟨g2, x2, rfl⟩ := New_step h2
    replace h := bind_ret h
    obtain ⟨_, p3, h3, h⟩ := h
    obtain ⟨g3, x3, rfl⟩ := EnterNode_step h3
    replace h := bind_ret h
    obtain ⟨tok, p4, h4, h⟩ := h
    replace h := bind_ret h
    obtain ⟨_, p5, h5, h⟩ := h
    obtain ⟨-, g5, x5, rfl⟩ := AddChildToken_step h5
    replace h := bind_ret h
    obtain ⟨b6, p6, h6, h⟩ := h
    obtain ⟨⟨T6, X6, E6⟩, S6⟩ := ParseStatementBlock_strict ps hps _ _ _ h6
    rcases NextToken_ret h4 with ⟨-, -, rfl⟩ | ⟨-, -, rfl⟩
    · have hne : p6.errors ≠ [] := fun he => by simpa using (E6 he).1
      cases b6
      · obtain ⟨rfl, rfl⟩ := pure_ret h
        exact ⟨⟨T6, (x2.htrans x3).htrans (x5.htrans X6), fun he => absurd he hne⟩, S6⟩
      · replace h := bind_ret h
        obtain ⟨_, p7, h7, h⟩ := h
        have := LeaveNode_ret h7
        subst this
        obtain ⟨rfl, rfl⟩ := pure_ret h
        exact ⟨⟨T6, (x2.htrans x3).htrans (x5.htrans X6), fun he => absurd he hne⟩, by simp⟩
    · cases b6
      · obtain ⟨rfl, rfl⟩ := pure_ret h
        exact ⟨⟨T6, (x2.htrans x3).htrans (x5.htrans X6), fun he => absurd he (S6 rfl)⟩, S6⟩
      · replace h := bind_ret h
        obtain ⟨_, p7, h7, h⟩ := h
        have := LeaveNode_ret h7
        subst this
        obtain ⟨rfl, rfl⟩ := pure_ret h
        refine ⟨⟨T6, (x2.htrans x3).htrans (x5.htrans X6), fun he => ?_⟩, by simp⟩
        obtain ⟨e, c, l⟩ := E6 he
        exact ⟨e, by simp [c], fun _ => l hlt⟩

theorem CurrentToken_ret {p p' : Parser} {t : Token} (h : CurrentToken p = Res.ret t p') :
    p' = p ∧ p.tokens[p.currentToken]? = some t := by
  unfold CurrentToken TokensAt at h
  cases ht : p.tokens[p.currentToken]? with
  | none => rw [ht] at h; cases h
  | some t' => rw [ht] at h; cases h; exact ⟨rfl, rfl⟩

theorem CurrentTokenType_ret {p p' : Parser} {ty : EToken}
    (h : CurrentTokenType p = Res.ret ty p') :
    p' = p ∧ ∃ t, p.tokens[p.currentToken]? = some t ∧ t.type = ty := by
  unfold CurrentTokenType at h
  replace h := bind_ret h
  obtain ⟨t, p1, h1, h⟩ := h
  obtain ⟨rfl, ht⟩ := CurrentToken_ret h1
  obtain ⟨rfl, rfl⟩ := pure_ret h
  exact ⟨rfl, t, ht, rfl⟩

theorem Fail_ret {msg : String} {p p' : Parser} {b : Bool} (h : Fail msg p = Res.ret b p') :
    b = false ∧ p' = { p with errors := p.errors ++ [Diag.text msg] } := by
  simp only [Fail, Res.ret.injEq] at h
  exact ⟨h.1.symm, h.2.symm⟩

theorem ParseFunction_strict (fuel : Nat) (ps : M Bool) (hps : Strict ps) :
    Strict (ParseFunction fuel ps) := by
  intro p b p' h
  unfold ParseFunction at h
  replace h := bind_ret h
  obtain ⟨tok, p1, h1, h⟩ := h
  replace h := bind_ret h
  obtain ⟨funName, p2, h2, h⟩ := h
  obtain ⟨rfl, -⟩ := CurrentToken_ret h2
  replace h := bind_ret h
  obtain ⟨b3, p3, h3, h⟩ := h
  obtain ⟨⟨T3, X3, E3⟩, S3⟩ := Expect_strict _ _ _ _ h3
  have B1 : Bal p p2 := by
    rcases NextToken_ret h1 with ⟨-, -, rfl⟩ | ⟨-, ht, rfl⟩
    · exact ⟨rfl, HeapExt.hrefl _, fun he => by simp at he⟩
    · exact ⟨rfl, HeapExt.hrefl _, fun he => ⟨he, rfl, fun _ => Nat.le_of_lt (getElem?_lt ht)⟩⟩
  have B3 : Bal p p3 := B1.btrans ⟨T3, X3, E3⟩
  cases b3
  · obtain ⟨rfl, rfl⟩ := Fail_ret h
    exact ⟨⟨B3.1, B3.2.1, fun he => by simp at he⟩, by simp⟩
  · replace h := bind_ret h
    obtain ⟨node, p4, h4, h⟩ := h
    obtain ⟨g4, x4, rfl⟩ := New_step h4
    replace h := bind_ret h
    obtain ⟨leaf, p5, h5, h⟩ := h
    obtain ⟨g5, x5, rfl⟩ := NewToken_step h5
    replace h := bind_ret h
    obtain ⟨_, p6, h6, h⟩ := h
    obtain ⟨g6, x6, rfl⟩ := NodeAddChild_step h6
    replace h := bind_ret h
    obtain ⟨_, p7, h7, h⟩ := h
    obtain ⟨g7, x7, rfl⟩ := EnterNode_step h7
    replace h := bind_ret h
    obtain ⟨b8, p8, h8, h⟩ := h
    obtain ⟨⟨T8, X8, E8⟩, S8⟩ := AddArguments_strict fuel _ _ _ h8
    have X : HeapExt p.heap p8.heap :=
      B3.2.1.htrans ((((x4.htrans x5).htrans x6).htrans x7).htrans X8)
    cases b8
    · obtain ⟨rfl, rfl⟩ := Fail_ret h
      exact ⟨⟨T8.trans B3.1, X, fun he => by simp at he⟩, by simp⟩
    · replace h := bind_ret h
      obtain ⟨b9, p9, h9, h⟩ := h
      obtain ⟨⟨T9, X9, E9⟩, S9⟩ := AddStatementBlock_strict ps hps _ _ _ h9
      cases b9
      · obtain ⟨rfl, rfl⟩ := Fail_ret h
        exact ⟨⟨(T9.trans T8).trans B3.1, X.htrans X9, fun he => by simp at he⟩, by simp⟩
      · replace h := bind_ret h
        obtain ⟨_, p10, h10, h⟩ := h
        have := LeaveNode_ret h10
        subst this
        obtain ⟨rfl, rfl⟩ := pure_ret h
        refine ⟨⟨(T9.trans T8).trans B3.1, X.htrans X9, fun he => ?_⟩, by simp⟩
        obtain ⟨e9, c9, l9⟩ := E9 he
        obtain ⟨e8, c8, l8⟩ := E8 e9
        obtain ⟨e3, c3, l3⟩ := B3.2.2 e8
        refine ⟨e3, ?_, fun hl => ?_⟩
        · show p9.context.dropLast = p.context
          rw [c9, c8]
          simp [c3]
        · have a3 := l3 hl
          have a8 := l8 (by rw [B3.1]; exact a3)
          have a9 := l9 (by rw [T8, B3.1]; rw [B3.1] at a8; exact a8)
          rw [T8, B3.1] at a9
          exact a9

theorem AddDelta_ret (type : EToken) {p p' : Parser} {b : Bool}
    (h : AddDelta type p = Res.ret b p') : b = true ∧ Bal p p' := by
  unfold AddDelta at h
  replace h := bind_ret h
  obtain ⟨what, p1, h1, h⟩ := h
  obtain ⟨rfl, -⟩ := CurrentToken_ret h1
  replace h := bind_ret h
  obtain ⟨num, p2, h2, h⟩ := h
  replace h := bind_ret h
  obtain ⟨delta, p3, h3, h⟩ := h
  obtain ⟨g3, x3, rfl⟩ := New_step h3
  replace h := bind_ret h
  obtain ⟨_, p4, h4, h⟩ := h
  obtain ⟨g4, x4, rfl⟩ := NodeAddChildToken_step h4
  replace h := bind_ret h
  obtain ⟨_, p5, h5, h⟩ := h
  obtain ⟨g5, x5, rfl⟩ := NodeAddChildToken_step h5
  replace h := bind_ret h
  obtain ⟨_, p6, h6, h⟩ := h
  obtain ⟨-, g6, x6, rfl⟩ := AddChild_step h6
  replace h := bind_ret h
  obtain ⟨_, p7, h7, h⟩ := h
  simp only [IncCurrentToken, Res.ret.injEq, true_and] at h7
  subst h7
  obtain ⟨rfl, rfl⟩ := pure_ret h
  refine ⟨rfl, ?_⟩
  rcases NextToken_ret h2 with ⟨-, -, rfl⟩ | ⟨-, ht, rfl⟩
  · exact ⟨rfl, ((x3.htrans x4).htrans x5).htrans x6, fun he => by simp at he⟩
  · exact ⟨rfl, ((x3.htrans x4).htrans x5).htrans x6,
      fun he => ⟨he, rfl, fun _ => getElem?_lt ht⟩⟩

theorem ParseDelta_ret {p p' : Parser} {b : Bool} (h : ParseDelta p = Res.ret b p') :
    Bal p p' ∧ (b = false → p'.errors = [] →
      p'.currentToken = p.currentToken + 1 ∧
        ∃ t, p.tokens[p.currentToken + 1]? = some t ∧ t.type ≠ EToken.Red) := by
  unfold ParseDelta at h
  replace h := bind_ret h
  obtain ⟨tok, p1, h1, h⟩ := h
  rcases NextToken_ret h1 with ⟨-, rfl, rfl⟩ | ⟨-, ht, rfl⟩
  · obtain ⟨rfl, rfl⟩ := pure_ret h
    exact ⟨⟨rfl, HeapExt.hrefl _, fun he => by simp at he⟩, fun _ he => by simp at he⟩
  · have B1 : Bal p { p with currentToken := p.currentToken + 1 } :=
      ⟨rfl, HeapExt.hrefl _, fun he => ⟨he, rfl, fun _ => Nat.le_of_lt (getElem?_lt ht)⟩⟩
    by_cases hred : tok.type = EToken.Red
    · rw [hred] at h
      obtain ⟨rfl, B2⟩ := AddDelta_ret _ h
      exact ⟨B1.btrans B2, by simp⟩
    · have hp : (pure false : M Bool) { p with currentToken := p.currentToken + 1 } =
          Res.ret b p' := by
        rw [← h]
        cases hty : tok.type <;> first | rfl | exact absurd hty hred
      obtain ⟨rfl, rfl⟩ := pure_ret hp
      exact ⟨B1, fun _ _ => ⟨rfl, tok, ht, hred⟩⟩

theorem leaf_statement_bal {token : Token} {p p' : Parser} {b : Bool} {t : Token}
    (ht : p.tokens[p.currentToken]? = some t) (h : AddChildToken token p = Res.ret b p') :
    Bal p p' ∧ (b = false → p'.errors = [] → Stopped p') := by
  obtain ⟨rfl, g, x, rfl⟩ := AddChildToken_step h
  exact ⟨⟨rfl, x, fun he => ⟨he, rfl, fun _ => getElem?_lt ht⟩⟩, by simp⟩

theorem strict_stopped {m : M Bool} (hm : Strict m) {p p' : Parser} {b : Bool}
    (h : m p = Res.ret b p') : Bal p p' ∧ (b = false → p'.errors = [] → Stopped p') :=
  ⟨(hm _ _ _ h).1, fun hb he => absurd he ((hm _ _ _ h).2 hb)⟩

theorem ParseStatement_ret (fuel : Nat) (ps : M Bool) (hps : Strict ps) {p p' : Parser}
    {b : Bool} (h : ParseStatement fuel ps p = Res.ret b p') :
    Bal p p' ∧ (b = false → p'.errors = [] → Stopped p') := by
  unfold ParseStatement at h
  replace h := bind_ret h
  obtain ⟨b1, p1, h1, h⟩ := h
  simp only [AtEnd, Res.ret.injEq] at h1
  obtain ⟨rfl, rfl⟩ := h1
  by_cases hend : p.tokens.length ≤ p.currentToken
  · simp only [hend, decide_True, if_true] at h
    obtain ⟨rfl, rfl⟩ := pure_ret h
    exact ⟨Bal.brefl _, fun _ _ => Or.inl hend⟩
  · simp only [hend, decide_False, Bool.false_eq_true, if_false] at h
    replace h := bind_ret h
    obtain ⟨ty, p2, h2, h⟩ := h
    obtain ⟨rfl, t, ht, hty⟩ := CurrentTokenType_ret h2
    have other : StartsStatement ty = false → (pure false : M Bool) p2 = Res.ret b p' →
        Bal p2 p' ∧ (b = false → p'.errors = [] → Stopped p') := by
      intro hs hp
      obtain ⟨rfl, rfl⟩ := pure_ret hp
      exact ⟨Bal.brefl _, fun _ _ => Or.inr (Or.inl ⟨t, ht, by rw [hty]; exact hs⟩)⟩
    cases ty with
    | PenDown => exact leaf_statement_bal ht h
    | PenUp => exact leaf_statement_bal ht h
    | Quit => exact leaf_statement_bal ht h
    | Number =>
      replace h := bind_ret h
      obtain ⟨tok, p3, h3, h⟩ := h
      obtain ⟨rfl, -⟩ := CurrentToken_ret h3
      exact leaf_statement_bal ht h
    | Repeat => exact strict_stopped (ParseRepeat_strict ps hps) h
    | Rotate => exact strict_stopped (AddParameterisedCommand_strict _) h
    | Move => exact strict_stopped (AddParameterisedCommand_strict _) h
    | Function => exact strict_stopped (ParseFunction_strict fuel ps hps) h
    | Delta =>
      obtain ⟨B, S⟩ := ParseDelta_ret h
      refine ⟨B, fun hb he => Or.inr (Or.inr ?_)⟩
      obtain ⟨hc, t', ht', hred⟩ := S hb he
      refine ⟨t, t', by omega, ?_, hty, ?_, hred⟩
      · rw [hc, B.1]; simpa using ht
      · rw [hc, B.1]; exact ht'
    | _ => exact other rfl h

theorem ParseStatements_ret (fuel : Nat) :
    ∀ (p p' : Parser) (b : Bool), ParseStatements fuel p = Res.ret b p' →
      Bal p p' ∧ b = decide (p'.errors = []) ∧ (b = true → Stopped p') := by
  induction fuel with
  | zero => intro p p' b h; cases h
  | succ fuel ih =>
    intro p p' b h
    have hstrict : Strict (ParseStatements fuel) := fun q c q' hq =>
      ⟨(ih q q' c hq).1, fun hc he => by
        have := (ih q q' c hq).2.1
        rw [hc] at this
        simp [he] at this⟩
    unfold ParseStatements at h
    replace h := bind_ret h
    obtain ⟨b1, p1, h1, h⟩ := h
    obtain ⟨B1, S1⟩ := ParseStatement_ret fuel _ hstrict h1
    cases b1
    · simp only [HasSucceeded, Bool.false_eq_true, if_false, Res.ret.injEq] at h
      obtain ⟨rfl, rfl⟩ := h
      exact ⟨B1, rfl, fun hb => S1 rfl (by simpa using hb)⟩
    · obtain ⟨B2, D2, S2⟩ := ih _ _ _ h
      exact ⟨B1.btrans B2, D2, S2⟩

theorem Run_true {fuel : Nat} {p p' : Parser} (h : Run fuel p = Res.ret true p') :
    ParseStatements fuel p = Res.ret true p' := by
  unfold Run at h
  cases hr : ParseStatements fuel p with
  | ret b q => rw [hr] at h; exact h
  | throw msg q => rw [hr] at h; simp at h
  | undef => rw [hr] at h; cases h
  | outOfFuel => rw [hr] at h; cases h

theorem Run_true_spec {fuel : Nat} {p p' : Parser} (h : Run fuel p = Res.ret true p') :
    p'.tokens = p.tokens ∧ HeapExt p.heap p'.heap ∧ p'.errors = [] ∧ p.errors = [] ∧
      p'.context = p.context ∧
      (p.currentToken ≤ p.tokens.length → p'.currentToken ≤ p.tokens.length) ∧ Stopped p' := by
  obtain ⟨⟨T, X, E⟩, D, S⟩ := ParseStatements_ret fuel _ _ _ (Run_true h)
  have he : p'.errors = [] := by simpa using D.symm
  obtain ⟨e, c, l⟩ := E he
  exact ⟨T, X, he, e, c, l, S rfl⟩

/-! ## Leaf statements -/

theorem getElem?_append_cons (pre : List Token) (t : Token) (ts : List Token) :
    (pre ++ t :: ts)[pre.length]? = some t := by
  induction pre with
  | nil => simp
  | cons a l ih => simpa using ih

theorem leafPayload_type (t : Token) : (leafPayload t).type = t.type := by
  unfold leafPayload
  split <;> simp_all [Token.ofType]

theorem ParseStatement_leaf (fuel : Nat) (ps : M Bool) (p : Parser) (t : Token)
    (top : AstNodePtr) (ht : p.tokens[p.currentToken]? = some t)
    (hleaf : IsLeafStatement t.type = true) (htop : p.context.getLast? = some top) :
    ParseStatement fuel ps p = Res.ret true
      { p with currentToken := p.currentToken + 1,
               heap := heapAddChild (p.heap ++ [leafNode t]) top p.heap.length } := by
  have hlt : ¬ p.tokens.length ≤ p.currentToken := by
    have := getElem?_lt ht
    omega
  obtain ⟨ty, sp⟩ := t
  cases ty <;> simp [IsLeafStatement] at hleaf <;>
    simp [ParseStatement, AtEnd, CurrentTokenType, CurrentToken, TokensAt, AddChildEToken,
      AddChildToken, AddChild, ContextBack, AstNode.AddChild, AstNode.NewToken,
      IncCurrentToken, bind, M.bind, pure, hlt, ht, htop, leafNode, leafPayload, Token.ofType]

theorem leaves_run (extra : Nat) :
    ∀ (toks pre : List Token) (cs : List AstNodePtr) (rest : List AstNode) (le : List Diag),
      (∀ t ∈ toks, IsLeafStatement t.type = true) →
      ParseStatements (toks.length + 1 + extra)
        { tokens := pre ++ toks, currentToken := pre.length, context := [0],
          heap := ⟨EToken.Start, none, cs⟩ :: rest, errors := [], lexerErrors := le } =
      Res.ret true
        { tokens := pre ++ toks, currentToken := pre.length + toks.length, context := [0],
          heap := ⟨EToken.Start, none, cs ++ List.range' (rest.length + 1) toks.length⟩ ::
            (rest ++ toks.map leafNode),
          errors := [], lexerErrors := le } := by
  intro toks
  induction toks with
  | nil =>
    intro pre cs rest le _
    have hf : ([] : List Token).length + 1 + extra = extra + 1 := by simp; omega
    rw [hf]
    simp [ParseStatements, ParseStatement, AtEnd, HasSucceeded, bind, M.bind, pure]
  | cons t ts ih =>
    intro pre cs rest le hall
    have hf : (t :: ts).length + 1 + extra = (ts.length + 1 + extra) + 1 := by simp; omega
    rw [hf]
    unfold ParseStatements
    have hstep := ParseStatement_leaf (ts.length + 1 + extra)
      (ParseStatements (ts.length + 1 + extra))
      { tokens := pre ++ t :: ts, currentToken := pre.length, context := [0],
        heap := ⟨EToken.Start, none, cs⟩ :: rest, errors := [], lexerErrors := le } t 0
      (getElem?_append_cons pre t ts) (hall t (by simp)) rfl
    have hih := ih (pre ++ [t]) (cs ++ [rest.length + 1]) (rest ++ [leafNode t]) le
      (fun u hu => hall u (by simp [hu]))
    simp only [List.append_assoc, List.singleton_append, List.length_append,
      List.length_singleton] at hih
    show M.bind _ _ _ = _
    unfold M.bind
    rw [hstep]
    dsimp only
    simp only [List.cons_append, List.length_cons]
    simp only [heapAddChild, ↓reduceIte]
    rw [hih]
    simp [List.range'_succ, Nat.add_assoc, Nat.add_comm 1]

theorem map_range'_eq {α β : Type} (f : Nat → β) (g : α → β) :
    ∀ (l : List α) (s : Nat), (∀ i (h : i < l.length), f (s + i) = g (l.get ⟨i, h⟩)) →
      (List.range' s l.length).map f = l.map g := by
  intro l
  induction l with
  | nil => intro s _; rfl
  | cons a l ih =>
    intro s h
    simp only [List.length_cons, List.range'_succ, List.map_cons]
    rw [ih (s + 1) (fun i hi => by
      have := h (i + 1) (by simp; omega)
      simpa [Nat.add_assoc, Nat.add_comm 1] using this)]
    have h0 := h 0 (by simp)
    simp at h0
    rw [h0]

theorem allSome_map_some {α β : Type} (g : α → β) (l : List α) :
    allSome (l.map (fun a => some (g a))) = some (l.map g) := by
  induction l with
  | nil => rfl
  | cons a l ih => simp [allSome, ih]

theorem toTree_childless (heap : List AstNode) (depth : Nat) (node : AstNodePtr) (n : AstNode)
    (hn : heap[node]? = some n) (hc : n.children = []) (hd : 0 < depth) :
    toTree heap depth node = some (Tree.node n.kind n.token []) := by
  cases depth with
  | zero => omega
  | succ d => simp [toTree, hn, hc, allSome]

theorem tree_of_leaves (toks : List Token) :
    toTree (⟨EToken.Start, none, List.range' 1 toks.length⟩ :: toks.map leafNode)
      (toks.length + 1) 0 =
    some (Tree.node EToken.Start none
      (toks.map (fun t => Tree.node t.type (some (leafPayload t)) []))) := by
  have hmap : (List.range' 1 toks.length).map
      (toTree (⟨EToken.Start, none, List.range' 1 toks.length⟩ :: toks.map leafNode)
        toks.length) =
      toks.map (fun t => some (Tree.node t.type (some (leafPayload t)) [])) := by
    apply map_range'_eq
    intro i hi
    have hget : (⟨EToken.Start, none, List.range' 1 toks.length⟩ :: toks.map leafNode)[1 + i]? =
        some (leafNode (toks.get ⟨i, hi⟩)) := by
      rw [Nat.add_comm 1 i]
      simp [List.getElem?_eq_getElem hi]
    exact toTree_childless _ _ _ _ hget rfl (by omega)
  simp only [toTree, List.getElem?_cons_zero, hmap]
  rw [allSome_map_some]
  rfl

/-! ## Further evaluations -/

theorem run_delta_red_number (k0 k1 sn : StringSplice) (fuel : Nat) :
    (Parser.New [⟨EToken.Delta, k0⟩, ⟨EToken.Red, k1⟩, ⟨EToken.Number, sn⟩]).andThen
      (fun _ => Run (fuel + 2)) = Res.ret true
      { tokens := [⟨EToken.Delta, k0⟩, ⟨EToken.Red, k1⟩, ⟨EToken.Number, sn⟩],
        currentToken := 3, context := [0],
        heap := [⟨EToken.Start, none, [1]⟩, ⟨EToken.Delta, none, [2, 3]⟩,
          ⟨EToken.Red, some ⟨EToken.Red, k1⟩, []⟩,
          ⟨EToken.Number, some ⟨EToken.Number, sn⟩, []⟩] } := by
  simp [Parser.New, Res.andThen, Run, ParseStatements, ParseStatement, AtEnd, SetLexer,
    EnterNode, AstNode.New, bind, M.bind, pure, CurrentTokenType, CurrentToken, TokensAt,
    AddChild, ContextBack, AstNode.AddChild, AstNode.AddChildToken, AstNode.NewToken,
    IncCurrentToken, HasSucceeded, heapAddChild, ParseDelta, AddDelta, NextToken]

theorem run_function_number_arg (k0 k2 k3 k4 k5 k6 sf : StringSplice) (fuel : Nat) :
    (Parser.New [⟨EToken.Function, k0⟩, ⟨EToken.Identifier, sf⟩, ⟨EToken.OpenParan, k2⟩,
        ⟨EToken.Number, k3⟩, ⟨EToken.CloseParan, k4⟩, ⟨EToken.OpenBrace, k5⟩,
        ⟨EToken.CloseBrace, k6⟩]).andThen
      (fun _ => Run (fuel + 3)) = Res.ret true
      { tokens := [⟨EToken.Function, k0⟩, ⟨EToken.Identifier, sf⟩, ⟨EToken.OpenParan, k2⟩,
          ⟨EToken.Number, k3⟩, ⟨EToken.CloseParan, k4⟩, ⟨EToken.OpenBrace, k5⟩,
          ⟨EToken.CloseBrace, k6⟩],
        currentToken := 7, context := [0],
        heap := [⟨EToken.Start, none, [1]⟩, ⟨EToken.Function, none, [2, 3, 5]⟩,
          ⟨EToken.Identifier, some ⟨EToken.Identifier, sf⟩, []⟩, ⟨EToken.ArgList, none, [4]⟩,
          ⟨EToken.Identifier, some (Token.ofType EToken.Identifier), []⟩,
          ⟨EToken.StatementBlock, none, []⟩] } := by
  simp [Parser.New, Res.andThen, Run, ParseStatements, ParseStatement, AtEnd, SetLexer,
    EnterNode, AstNode.New, bind, M.bind, pure, CurrentTokenType, CurrentToken, TokensAt,
    AddChildEToken, AddChildToken, AddChild, ContextBack, AstNode.AddChild, AstNode.NewToken,
    IncCurrentToken, HasSucceeded, heapAddChild, Peek, NextToken, Expect, CurrentTokenTypeIs,
    ParseFunction, AddArguments, AddArgumentsLoop, Token.ofType, AddStatementBlock,
    ParseStatementBlock, LeaveNode]

theorem run_function_open_paren (k0 k2 sf : StringSplice) (fuel : Nat) :
    (Parser.New [⟨EToken.Function, k0⟩, ⟨EToken.Identifier, sf⟩,
        ⟨EToken.OpenParan, k2⟩]).andThen
      (fun _ => Run (fuel + 2)) = Res.ret false
      { tokens := [⟨EToken.Function, k0⟩, ⟨EToken.Identifier, sf⟩, ⟨EToken.OpenParan, k2⟩],
        currentToken := 4, context := [0, 1, 3],
        heap := [⟨EToken.Start, none, [1]⟩, ⟨EToken.Function, none, [2, 3]⟩,
          ⟨EToken.Identifier, some ⟨EToken.Identifier, sf⟩, []⟩, ⟨EToken.ArgList, none, [4]⟩,
          ⟨EToken.Identifier, some (Token.ofType EToken.Identifier), []⟩],
        errors := [Diag.what "out_of_range"] } := by
  simp [Parser.New, Res.andThen, Run, ParseStatements, ParseStatement, AtEnd, SetLexer,
    EnterNode, AstNode.New, bind, M.bind, pure, CurrentTokenType, CurrentToken, TokensAt,
    AddChildEToken, AddChildToken, AddChild, ContextBack, AstNode.AddChild, AstNode.NewToken,
    IncCurrentToken, HasSucceeded, heapAddChild, Peek, NextToken, Expect, CurrentTokenTypeIs,
    ParseFunction, AddArguments, AddArgumentsLoop, Token.ofType]

theorem Holds_bind_eq {α β : Type} {m : M α} {f : α → M β} {p : Parser}
    {Q : β → Parser → Prop} {T : Parser → Prop} {U F : Prop}
    {Q1 : α → Parser → Prop} {T1 : Parser → Prop} {U1 F1 : Prop}
    (h : (m p).Holds Q1 T1 U1 F1)
    (hq : ∀ a p1, m p = Res.ret a p1 → Q1 a p1 → (f a p1).Holds Q T U F)
    (ht : ∀ p1, T1 p1 → T p1) (hu : U1 → U) (hf : F1 → F) :
    ((m >>= f) p).Holds Q T U F := by
  show (M.bind m f p).Holds Q T U F
  unfold M.bind
  cases hm : m p with
  | ret a p1 => rw [hm] at h; exact hq a p1 hm h
  | throw msg p1 => rw [hm] at h; exact ht p1 h
  | undef => rw [hm] at h; exact hu h
  | outOfFuel => rw [hm] at h; exact hf h

theorem Holds_bind {α β : Type} {m : M α} {f : α → M β} {p : Parser}
    {Q : β → Parser → Prop} {T : Parser → Prop} {U F : Prop}
    {Q1 : α → Parser → Prop} {T1 : Parser → Prop} {U1 F1 : Prop}
    (h : (m p).Holds Q1 T1 U1 F1)
    (hq : ∀ a p1, Q1 a p1 → (f a p1).Holds Q T U F)
    (ht : ∀ p1, T1 p1 → T p1) (hu : U1 → U) (hf : F1 → F) :
    ((m >>= f) p).Holds Q T U F :=
  Holds_bind_eq h (fun a p1 _ => hq a p1) ht hu hf

theorem Holds_mono {α : Type} {r : Res α}
    {Q Q1 : α → Parser → Prop} {T T1 : Parser → Prop} {U U1 F F1 : Prop}
    (h : r.Holds Q1 T1 U1 F1)
    (hq : ∀ a p1, Q1 a p1 → Q a p1)
    (ht : ∀ p1, T1 p1 → T p1) (hu : U1 → U) (hf : F1 → F) :
    r.Holds Q T U F := by
  cases r with
  | ret a p1 => exact hq a p1 h
  | throw msg p1 => exact ht p1 h
  | undef => exact hu h
  | outOfFuel => exact hf h

theorem Holds_pure {α : Type} {a : α} {p : Parser} {Q : α → Parser → Prop}
    {T : Parser → Prop} {U F : Prop} (h : Q a p) : ((pure a : M α) p).Holds Q T U F := h

theorem Follows.frefl (p : Parser) : Follows p p :=
  ⟨rfl, Nat.le_refl _, List.prefix_refl _⟩

theorem Follows.ftrans {p p1 p2 : Parser} (a : Follows p p1) (b : Follows p1 p2) :
    Follows p p2 :=
  ⟨b.1.trans a.1, Nat.le_trans a.2.1 b.2.1, a.2.2.trans b.2.2⟩

theorem Follows_of {p p' : Parser} (ht : p'.tokens = p.tokens)
    (hc : p.currentToken ≤ p'.currentToken) (hx : p.context <+: p'.context) : Follows p p' :=
  ⟨ht, hc, hx⟩

theorem Moves.follows {k : Nat} {p p' : Parser} (h : Moves k p p') : Follows p p' :=
  ⟨h.1, by rw [h.2.1]; exact Nat.le_add_right _ _, by rw [h.2.2]⟩

theorem Moves.mrefl (p : Parser) : Moves 0 p p := ⟨rfl, rfl, rfl⟩

theorem Moves.mtrans {j k : Nat} {p p1 p2 : Parser} (a : Moves j p p1) (b : Moves k p1 p2) :
    Moves (j + k) p p2 :=
  ⟨b.1.trans a.1, by rw [b.2.1, a.2.1, Nat.add_assoc], b.2.2.trans a.2.2⟩

theorem Follows.nil {p p' : Parser} (h : Follows p p') (hn : p'.context = []) :
    p.context = [] := by
  have := h.2.2
  rw [hn] at this
  exact List.prefix_nil.mp this

theorem Follows.remaining_le {p p' : Parser} (h : Follows p p') :
    p'.remaining ≤ p.remaining := by
  have := h.2.1
  simp only [Parser.remaining, h.1]
  omega

/-! ### The primitive member functions -/

theorem Expect_moves (type : EToken) (p : Parser) :
    (Expect type p).Holds
      (fun b p' => p.currentToken < p.tokens.length ∧
        ((b = true ∧ Moves 1 p p') ∨ (b = false ∧ Moves 0 p p')))
      (fun p' => p' = p) False False := by
  cases ht : p.tokens[p.currentToken]? with
  | none =>
    simp [Expect, CurrentTokenTypeIs, CurrentTokenType, CurrentToken, TokensAt, bind, M.bind,
      ht, Res.Holds]
  | some t =>
    have := getElem?_lt ht
    by_cases hty : t.type = type <;>
    simp [Expect, CurrentTokenTypeIs, CurrentTokenType, CurrentToken, TokensAt, FailWith,
      IncCurrentToken, bind, M.bind, pure, ht, hty, Res.Holds, Moves, this]

theorem NextToken_moves (p : Parser) :
    (NextToken p).Holds
      (fun _ p' => (p.tokens.length ≤ p.currentToken ∧ Moves 0 p p') ∨
        (p.currentToken + 1 < p.tokens.length ∧ Moves 1 p p'))
      (fun p' => Moves 1 p p') False False := by
  by_cases hend : p.tokens.length ≤ p.currentToken
  · simp [NextToken, AtEnd, FailWith, bind, M.bind, pure, hend, Res.Holds, Moves]
  · cases ht : p.tokens[p.currentToken + 1]? with
    | none => simp [NextToken, AtEnd, TokensAt, bind, M.bind, hend, ht, Res.Holds, Moves]
    | some t =>
      have := getElem?_lt ht
      simp [NextToken, AtEnd, TokensAt, bind, M.bind, hend, ht, Res.Holds, Moves, this]

theorem CurrentToken_moves (p : Parser) :
    (CurrentToken p).Holds
      (fun t p' => p' = p ∧ p.tokens[p.currentToken]? = some t)
      (fun p' => p' = p) False False := by
  cases ht : p.tokens[p.currentToken]? with
  | none => simp [CurrentToken, TokensAt, ht, Res.Holds]
  | some t => simp [CurrentToken, TokensAt, ht, Res.Holds]

theorem CurrentTokenType_moves (p : Parser) :
    (CurrentTokenType p).Holds
      (fun ty p' => p' = p ∧ ∃ t, p.tokens[p.currentToken]? = some t ∧ t.type = ty)
      (fun p' => p' = p) False False := by
  cases ht : p.tokens[p.currentToken]? with
  | none => simp [CurrentTokenType, CurrentToken, TokensAt, ht, Res.Holds, bind, M.bind]
  | some t =>
    simp [CurrentTokenType, CurrentToken, TokensAt, ht, Res.Holds, bind, M.bind, pure]

theorem Peek_moves (type : EToken) (p : Parser) :
    (Peek type p).Holds
      (fun b p' => p' = p ∧ (b = true → p.currentToken + 1 < p.tokens.length))
      (fun _ => False) False False := by
  cases ht : p.tokens[p.currentToken + 1]? with
  | none => simp [Peek, ht, Res.Holds]
  | some t =>
    have := getElem?_lt ht
    simp [Peek, ht, Res.Holds, this]

theorem New_moves (kind : EToken) (p : Parser) :
    (AstNode.New kind p).Holds (fun _ p' => Moves 0 p p') (fun _ => False) False False :=
  ⟨rfl, rfl, rfl⟩

theorem NewToken_moves (token : Token) (p : Parser) :
    (AstNode.NewToken token p).Holds (fun _ p' => Moves 0 p p') (fun _ => False) False
      False :=
  ⟨rfl, rfl, rfl⟩

theorem NodeAddChild_moves (parent child : AstNodePtr) (p : Parser) :
    (AstNode.AddChild parent child p).Holds (fun _ p' => Moves 0 p p') (fun _ => False) False
      False :=
  ⟨rfl, rfl, rfl⟩

theorem NodeAddChildToken_moves (parent : AstNodePtr) (token : Token) (p : Parser) :
    (AstNode.AddChildToken parent token p).Holds (fun _ p' => Moves 0 p p') (fun _ => False)
      False False :=
  ⟨rfl, rfl, rfl⟩

theorem FailWith_moves (d : Diag) (p : Parser) :
    (FailWith d p).Holds (fun _ p' => Moves 0 p p') (fun _ => False) False False :=
  ⟨rfl, rfl, rfl⟩

theorem LexerFail_moves (d : Diag) (p : Parser) :
    (LexerFail d p).Holds (fun _ p' => Moves 0 p p') (fun _ => False) False False :=
  ⟨rfl, rfl, rfl⟩

theorem Fail_moves (msg : String) (p : Parser) :
    (Fail msg p).Holds (fun b p' => b = false ∧ Moves 0 p p') (fun _ => False) False False :=
  ⟨rfl, rfl, rfl, rfl⟩

theorem Inc_moves (p : Parser) :
    (IncCurrentToken p).Holds (fun _ p' => Moves 1 p p') (fun _ => False) False False :=
  ⟨rfl, rfl, rfl⟩

theorem AddChild_moves (child : AstNodePtr) (p : Parser) :
    (AddChild child p).Holds (fun b p' => b = true ∧ Moves 0 p p') (fun _ => False)
      (p.context = []) False := by
  cases hc : p.context.getLast? with
  | none =>
    have : p.context = [] := List.getLast?_eq_none_iff.mp hc
    simp [AddChild, ContextBack, bind, M.bind, hc, Res.Holds, this]
  | some top =>
    simp [AddChild, ContextBack, AstNode.AddChild, bind, M.bind, pure, hc, Res.Holds, Moves]

theorem AddChildToken_moves (token : Token) (p : Parser) :
    (AddChildToken token p).Holds (fun b p' => b = true ∧ Moves 1 p p') (fun _ => False)
      (p.context = []) False := by
  unfold AddChildToken
  refine Holds_bind (Inc_moves p) ?_ (fun _ => False.elim) False.elim False.elim
  intro _ p1 m1
  refine Holds_bind (NewToken_moves _ p1) ?_ (fun _ => False.elim) False.elim False.elim
  intro node p2 m2
  refine Holds_mono (AddChild_moves node p2) ?_ (fun _ => False.elim) ?_ False.elim
  · rintro b p3 ⟨hb, m3⟩
    exact ⟨hb, (m1.mtrans m2).mtrans m3⟩
  · intro h
    rw [← (m1.mtrans m2).2.2]
    exact h

theorem EnterNode_moves (node : AstNodePtr) (p : Parser) :
    (EnterNode node p).Holds
      (fun _ p' => p'.tokens = p.tokens ∧ p'.currentToken = p.currentToken ∧
        p'.context = p.context ++ [node])
      (fun _ => False) False False := by
  unfold EnterNode
  cases hc : p.context.getLast? <;> exact ⟨rfl, rfl, rfl⟩

theorem LeaveNode_moves (p : Parser) :
    (LeaveNode p).Holds
      (fun _ p' => p'.tokens = p.tokens ∧ p'.currentToken = p.currentToken ∧
        p'.context = p.context.dropLast)
      (fun _ => False) (p.context = []) False := by
  unfold LeaveNode
  cases hc : p.context with
  | nil => rfl
  | cons a l => exact ⟨rfl, rfl, rfl⟩

/-! ### The rules -/

theorem Expect_rule (g : Nat) (type : EToken) : RuleSpec g (Expect type) := by
  intro p
  refine Holds_mono (Expect_moves type p) ?_ ?_ False.elim False.elim
  · rintro b p1 ⟨-, ⟨rfl, m⟩ | ⟨rfl, m⟩⟩
    · exact ⟨m.follows, fun _ => ⟨m.2.2, by rw [m.2.1]; exact Nat.lt_succ_self _⟩⟩
    · exact ⟨m.follows, by simp⟩
  · rintro p1 rfl
    exact Follows.frefl _

theorem ParseStatementBlock_rule (g : Nat) (ps : M Bool) (hps : LoopSpec g ps) :
    RuleSpec g (ParseStatementBlock ps) := by
  intro p
  unfold ParseStatementBlock
  refine Holds_bind (Expect_moves _ p) ?_ ?_ False.elim False.elim
  · rintro b1 p1 ⟨hlt, ⟨rfl, m1⟩ | ⟨rfl, m1⟩⟩
    · refine Holds_bind (hps p1) ?_ ?_ ?_ ?_
      · rintro b2 p2 ⟨f2, c2⟩
        have f12 : Follows p p2 := m1.follows.ftrans f2
        have lt2 : p.currentToken < p2.currentToken := by
          have := f2.2.1
          have := m1.2.1
          omega
        cases b2
        · exact ⟨f12, by simp⟩
        · refine Holds_bind (Expect_moves _ p2) ?_ ?_ False.elim False.elim
          · rintro b3 p3 ⟨-, ⟨rfl, m3⟩ | ⟨rfl, m3⟩⟩
            · refine ⟨f12.ftrans m3.follows, fun _ => ⟨?_, ?_⟩⟩
              · rw [m3.2.2, c2 rfl, m1.2.2]
              · have := m3.2.1
                omega
            · exact ⟨f12.ftrans m3.follows, by simp⟩
          · rintro p3 rfl
            exact f12
      · intro p2 f2
        exact m1.follows.ftrans f2
      · intro h
        rw [← m1.2.2]
        exact h
      · intro hg
        have := m1.2.1
        simp only [Parser.remaining, m1.1] at hg ⊢
        omega
    · exact ⟨m1.follows, by simp⟩
  · rintro p1 rfl
    exact Follows.frefl _

theorem AddStatementBlock_rule (g : Nat) (ps : M Bool) (hps : LoopSpec g ps) :
    RuleSpec g (AddStatementBlock ps) := by
  intro p
  unfold AddStatementBlock
  refine Holds_bind (New_moves _ p) ?_ (fun _ => False.elim) False.elim False.elim
  intro node p1 m1
  refine Holds_bind (EnterNode_moves node p1) ?_ (fun _ => False.elim) False.elim False.elim
  rintro _ p2 ⟨t2, c2, x2⟩
  have f2 : Follows p p2 :=
    Follows_of (t2.trans m1.1) (by rw [c2, m1.2.1]; exact Nat.le_refl _)
      (by rw [x2, m1.2.2]; exact List.prefix_append _ _)
  have hne : p2.context ≠ [] := by rw [x2]; simp
  refine Holds_bind (ParseStatementBlock_rule g ps hps p2) ?_ ?_ ?_ ?_
  · rintro b3 p3 ⟨f3, s3⟩
    cases b3
    · exact ⟨f2.ftrans f3, by simp⟩
    · obtain ⟨c3, l3⟩ := s3 rfl
      refine Holds_bind (LeaveNode_moves p3) ?_ (fun _ => False.elim) ?_ False.elim
      · rintro _ p4 ⟨t4, c4, x4⟩
        have hx : p4.context = p.context := by rw [x4, c3, x2, m1.2.2]; simp
        have hc : p.currentToken < p4.currentToken := by
          have := m1.2.1
          omega
        exact ⟨Follows_of (t4.trans (f2.ftrans f3).1) (Nat.le_of_lt hc) (by rw [hx]),
          fun _ => ⟨hx, hc⟩⟩
      · intro h
        exact absurd (c3 ▸ h) hne
  · intro p3 f3
    exact f2.ftrans f3
  · intro h
    exact absurd h hne
  · intro hg
    have := f2.remaining_le
    have e : p2.remaining = p.remaining := by
      simp only [Parser.remaining, t2, c2, m1.1, m1.2.1, Nat.add_zero]
    omega

theorem AddArgumentsLoop_holds (g : Nat) :
    ∀ p, (AddArgumentsLoop g p).Holds
      (fun _ p' => p'.tokens = p.tokens ∧ p.currentToken < p'.currentToken ∧
        p'.context = p.context)
      (fun p' => p'.tokens = p.tokens ∧ p.currentToken < p'.currentToken ∧
        p'.context = p.context)
      (p.context = []) (g ≤ p.remaining) := by
  induction g with
  | zero => intro p; exact Nat.zero_le _
  | succ g ih =>
    intro p
    unfold AddArgumentsLoop
    refine Holds_bind (AddChildToken_moves _ p) ?_ (fun _ => False.elim) id False.elim
    rintro b1 p1 ⟨rfl, m1⟩
    refine Holds_bind (Peek_moves _ p1) ?_ (fun _ => False.elim) False.elim False.elim
    rintro b2 p2 ⟨rfl, hpeek⟩
    have c1 := m1.2.1
    cases b2
    · refine Holds_pure ⟨m1.1, ?_, m1.2.2⟩
      omega
    · have hlt := hpeek rfl
      refine Holds_bind (NextToken_moves p2) ?_ ?_ False.elim False.elim
      · rintro tok p3 (⟨hend, m3⟩ | ⟨-, m3⟩)
        · omega
        · have c3 := m3.2.1
          refine Holds_mono (ih p3) ?_ ?_ ?_ ?_
          · rintro _ p4 ⟨t4, c4, x4⟩
            exact ⟨t4.trans (m3.1.trans m1.1), by omega, by rw [x4, m3.2.2, m1.2.2]⟩
          · rintro p4 ⟨t4, c4, x4⟩
            exact ⟨t4.trans (m3.1.trans m1.1), by omega, by rw [x4, m3.2.2, m1.2.2]⟩
          · intro h
            rw [← m1.2.2, ← m3.2.2]
            exact h
          · intro hg
            simp only [Parser.remaining, m3.1, m1.1] at hg hlt ⊢
            omega
      · intro p3 m3
        have c3 := m3.2.1
        exact ⟨m3.1.trans m1.1, by omega, by rw [m3.2.2, m1.2.2]⟩

theorem AddArguments_rule (g : Nat) : RuleSpec g (AddArguments g) := by
  intro p
  unfold AddArguments
  refine Holds_bind (Expect_moves _ p) ?_ ?_ False.elim False.elim
  · rintro b1 p1 ⟨hlt, ⟨rfl, m1⟩ | ⟨rfl, m1⟩⟩
    · have c1 := m1.2.1
      refine Holds_bind (New_moves _ p1) ?_ (fun _ => False.elim) False.elim False.elim
      intro args p2 m2
      have c2 := m2.2.1
      refine Holds_bind (EnterNode_moves args p2) ?_ (fun _ => False.elim) False.elim
        False.elim
      rintro _ p3 ⟨t3, c3, x3⟩
      have x3' : p3.context = p.context ++ [args] := by rw [x3, m2.2.2, m1.2.2]
      have t3' : p3.tokens = p.tokens := t3.trans (m2.1.trans m1.1)
      have hne : p3.context ≠ [] := by rw [x3']; simp
      refine Holds_bind (AddArgumentsLoop_holds g p3) ?_ ?_ ?_ ?_
      · rintro _ p4 ⟨t4, c4, x4⟩
        have f4 : Follows p p4 :=
          Follows_of (t4.trans t3') (by omega) (by rw [x4, x3']; exact List.prefix_append _ _)
        refine Holds_bind (Expect_moves _ p4) ?_ ?_ False.elim False.elim
        · rintro b5 p5 ⟨-, ⟨rfl, m5⟩ | ⟨rfl, m5⟩⟩
          · have c5 := m5.2.1
            refine Holds_bind (LeaveNode_moves p5) ?_ (fun _ => False.elim) ?_ False.elim
            · rintro _ p6 ⟨t6, c6, x6⟩
              have hx : p6.context = p.context := by rw [x6, m5.2.2, x4, x3']; simp
              refine Holds_pure ⟨Follows_of (t6.trans (m5.1.trans f4.1)) (by omega)
                (by rw [hx]), fun _ => ⟨hx, by omega⟩⟩
            · intro h
              rw [m5.2.2, x4] at h
              exact absurd h hne
          · refine Holds_bind (LexerFail_moves _ p5) ?_ (fun _ => False.elim) False.elim
              False.elim
            intro _ p6 m6
            exact Holds_pure ⟨(f4.ftrans m5.follows).ftrans m6.follows, by simp⟩
        · rintro p5 rfl
          exact f4
      · rintro p4 ⟨t4, c4, x4⟩
        exact Follows_of (t4.trans t3') (by omega)
          (by rw [x4, x3']; exact List.prefix_append _ _)
      · intro h
        exact absurd h hne
      · intro hg
        simp only [Parser.remaining, t3', c3, c2, c1] at hg ⊢
        omega
    · refine Holds_bind (FailWith_moves _ p1) ?_ (fun _ => False.elim) False.elim False.elim
      intro _ p2 m2
      exact Holds_pure ⟨m1.follows.ftrans m2.follows, by simp⟩
  · rintro p1 rfl
    exact Follows.frefl _

theorem AddParameterisedCommand_rule (g : Nat) (type : EToken) :
    RuleSpec g (AddParameterisedCommand type) := by
  intro p
  unfold AddParameterisedCommand
  refine Holds_bind (Peek_moves _ p) ?_ (fun _ => False.elim) False.elim False.elim
  rintro b1 p1 ⟨rfl, -⟩
  cases b1
  · refine Holds_bind (FailWith_moves _ p1) ?_ (fun _ => False.elim) False.elim False.elim
    intro _ p2 m2
    exact Holds_pure ⟨m2.follows, by simp⟩
  · refine Holds_bind (New_moves _ p1) ?_ (fun _ => False.elim) False.elim False.elim
    intro node p2 m2
    refine Holds_bind (NextToken_moves p2) ?_ ?_ False.elim False.elim
    · intro tok p3 h3
      have f3 : Follows p2 p3 ∧ p3.context = p2.context := by
        rcases h3 with ⟨-, m3⟩ | ⟨-, m3⟩
        · exact ⟨m3.follows, m3.2.2⟩
        · exact ⟨m3.follows, m3.2.2⟩
      refine Holds_bind (NewToken_moves _ p3) ?_ (fun _ => False.elim) False.elim False.elim
      intro leaf p4 m4
      refine Holds_bind (NodeAddChild_moves _ _ p4) ?_ (fun _ => False.elim) False.elim
        False.elim
      intro _ p5 m5
      refine Holds_bind (Inc_moves p5) ?_ (fun _ => False.elim) False.elim False.elim
      intro _ p6 m6
      have x6 : p6.context = p1.context := by
        rw [m6.2.2, m5.2.2, m4.2.2, f3.2, m2.2.2]
      refine Holds_bind (AddChild_moves _ p6) ?_ (fun _ => False.elim) ?_ False.elim
      · rintro _ p7 ⟨-, m7⟩
        have hx : p7.context = p1.context := by rw [m7.2.2, x6]
        have hc : p1.currentToken < p7.currentToken := by
          have := m7.2.1
          have := m6.2.1
          have := m5.2.1
          have := m4.2.1
          have := f3.1.2.1
          have := m2.2.1
          omega
        refine Holds_pure ⟨Follows_of ?_ (Nat.le_of_lt hc) (by rw [hx]), fun _ => ⟨hx, hc⟩⟩
        rw [m7.1, m6.1, m5.1, m4.1, f3.1.1, m2.1]
      · intro h
        rw [← x6]
        exact h
    · intro p3 m3
      exact m2.follows.ftrans m3.follows

theorem ParseRepeat_rule (g : Nat) (ps : M Bool) (hps : LoopSpec g ps) :
    RuleSpec g (ParseRepeat ps) := by
  intro p
  unfold ParseRepeat
  refine Holds_bind (Peek_moves _ p) ?_ (fun _ => False.elim) False.elim False.elim
  rintro b1 p1 ⟨rfl, -⟩
  cases b1
  · refine Holds_mono (Fail_moves _ p1) ?_ (fun _ => False.elim) False.elim False.elim
    rintro b p2 ⟨rfl, m2⟩
    exact ⟨m2.follows, by simp⟩
  · refine Holds_bind (New_moves _ p1) ?_ (fun _ => False.elim) False.elim False.elim
    intro node p2 m2
    refine Holds_bind (EnterNode_moves node p2) ?_ (fun _ => False.elim) False.elim
      False.elim
    rintro _ p3 ⟨t3, c3, x3⟩
    have x3' : p3.context = p1.context ++ [node] := by rw [x3, m2.2.2]
    have f3 : Follows p1 p3 :=
      Follows_of (t3.trans m2.1) (by rw [c3, m2.2.1]; exact Nat.le_refl _)
        (by rw [x3']; exact List.prefix_append _ _)
    have hne : ∀ q : Parser, q.context = p3.context → q.context ≠ [] := by
      intro q hq
      rw [hq, x3']
      simp
    refine Holds_bind (NextToken_moves p3) ?_ ?_ False.elim False.elim
    · intro tok p4 h4
      have m4 : Follows p3 p4 ∧ p4.context = p3.context := by
        rcases h4 with ⟨-, m⟩ | ⟨-, m⟩
        · exact ⟨m.follows, m.2.2⟩
        · exact ⟨m.follows, m.2.2⟩
      refine Holds_bind (AddChildToken_moves _ p4) ?_ (fun _ => False.elim) ?_ False.elim
      · rintro _ p5 ⟨-, m5⟩
        have x5 : p5.context = p3.context := by rw [m5.2.2, m4.2]
        have f5 : Follows p1 p5 := (f3.ftrans m4.1).ftrans m5.follows
        have c5 : p1.currentToken < p5.currentToken := by
          have := m5.2.1
          have := m4.1.2.1
          have := f3.2.1
          omega
        refine Holds_bind (ParseStatementBlock_rule g ps hps p5) ?_ ?_ ?_ ?_
        · rintro b6 p6 ⟨f6, s6⟩
          cases b6
          · exact Holds_pure ⟨f5.ftrans f6, by simp⟩
          · obtain ⟨x6, c6⟩ := s6 rfl
            refine Holds_bind (LeaveNode_moves p6) ?_ (fun _ => False.elim) ?_ False.elim
            · rintro _ p7 ⟨t7, c7, x7⟩
              have hx : p7.context = p1.context := by rw [x7, x6, x5, x3']; simp
              refine Holds_pure ⟨Follows_of (t7.trans (f5.ftrans f6).1) (by omega)
                (by rw [hx]), fun _ => ⟨hx, by omega⟩⟩
            · intro h
              exact absurd h (hne p6 (x6.trans x5))
        · intro p6 f6
          exact f5.ftrans f6
        · intro h
          exact absurd h (hne p5 x5)
        · intro hg
          have := f5.remaining_le
          omega
      · intro h
        exact absurd h (hne p4 m4.2)
    · intro p4 m4
      exact f3.ftrans m4.follows

theorem ParseFunction_rule (g : Nat) (ps : M Bool) (hps : LoopSpec g ps) :
    RuleSpec g (ParseFunction g ps) := by
  intro p
  unfold ParseFunction
  refine Holds_bind (NextToken_moves p) ?_ ?_ False.elim False.elim
  · intro tok p1 h1
    have f1 : Follows p p1 ∧ p1.context = p.context := by
      rcases h1 with ⟨-, m⟩ | ⟨-, m⟩
      · exact ⟨m.follows, m.2.2⟩
      · exact ⟨m.follows, m.2.2⟩
    refine Holds_bind (CurrentToken_moves p1) ?_ ?_ False.elim False.elim
    · rintro funName p2 ⟨rfl, -⟩
      refine Holds_bind (Expect_moves _ p2) ?_ ?_ False.elim False.elim
      · rintro b3 p3 ⟨-, ⟨rfl, m3⟩ | ⟨rfl, m3⟩⟩
        · have f3 : Follows p p3 := f1.1.ftrans m3.follows
          have c3 : p.currentToken < p3.currentToken := by
            have := m3.2.1
            have := f1.1.2.1
            omega
          have x3 : p3.context = p.context := by rw [m3.2.2, f1.2]
          refine Holds_bind (New_moves _ p3) ?_ (fun _ => False.elim) False.elim False.elim
          intro node p4 m4
          refine Holds_bind (NewToken_moves _ p4) ?_ (fun _ => False.elim) False.elim
            False.elim
          intro leaf p5 m5
          refine Holds_bind (NodeAddChild_moves _ _ p5) ?_ (fun _ => False.elim) False.elim
            False.elim
          intro _ p6 m6
          refine Holds_bind (EnterNode_moves node p6) ?_ (fun _ => False.elim) False.elim
            False.elim
          rintro _ p7 ⟨t7, c7, x7⟩
          have x7' : p7.context = p.context ++ [node] := by
            rw [x7, m6.2.2, m5.2.2, m4.2.2, x3]
          have t7' : p7.tokens = p.tokens := by rw [t7, m6.1, m5.1, m4.1, f3.1]
          have c7' : p.currentToken < p7.currentToken := by
            have := m6.2.1
            have := m5.2.1
            have := m4.2.1
            omega
          have f7 : Follows p p7 :=
            Follows_of t7' (Nat.le_of_lt c7') (by rw [x7']; exact List.prefix_append _ _)
          have hne : ∀ q : Parser, q.context = p7.context → q.context ≠ [] := by
            intro q hq
            rw [hq, x7']
            simp
          refine Holds_bind (AddArguments_rule g p7) ?_ ?_ ?_ ?_
          · rintro b8 p8 ⟨f8, s8⟩
            cases b8
            · refine Holds_mono (Fail_moves _ p8) ?_ (fun _ => False.elim) False.elim
                False.elim
              rintro b p9 ⟨rfl, m9⟩
              exact ⟨(f7.ftrans f8).ftrans m9.follows, by simp⟩
            · obtain ⟨x8, c8⟩ := s8 rfl
              refine Holds_bind (AddStatementBlock_rule g ps hps p8) ?_ ?_ ?_ ?_
              · rintro b9 p9 ⟨f9, s9⟩
                cases b9
                · refine Holds_mono (Fail_moves _ p9) ?_ (fun _ => False.elim) False.elim
                    False.elim
                  rintro b p10 ⟨rfl, m10⟩
                  exact ⟨((f7.ftrans f8).ftrans f9).ftrans m10.follows, by simp⟩
                · obtain ⟨x9, c9⟩ := s9 rfl
                  refine Holds_bind (LeaveNode_moves p9) ?_ (fun _ => False.elim) ?_
                    False.elim
                  · rintro _ p10 ⟨t10, c10, x10⟩
                    have hx : p10.context = p.context := by
                      rw [x10, x9, x8, x7']
                      simp
                    refine Holds_pure ⟨Follows_of
                      (t10.trans ((f7.ftrans f8).ftrans f9).1) (by omega) (by rw [hx]),
                      fun _ => ⟨hx, by omega⟩⟩
                  · intro h
                    exact absurd h (hne p9 (x9.trans x8))
              · intro p9 f9
                exact (f7.ftrans f8).ftrans f9
              · intro h
                exact absurd h (hne p8 x8)
              · intro hg
                have := (f7.ftrans f8).remaining_le
                omega
          · intro p8 f8
            exact f7.ftrans f8
          · intro h
            exact absurd h (hne p7 rfl)
          · intro hg
            have := f7.remaining_le
            omega
        · refine Holds_mono (Fail_moves _ p3) ?_ (fun _ => False.elim) False.elim False.elim
          rintro b p4 ⟨rfl, m4⟩
          exact ⟨(f1.1.ftrans m3.follows).ftrans m4.follows, by simp⟩
      · rintro p3 rfl
        exact f1.1
    · rintro p2 rfl
      exact f1.1
  · intro p1 m1
    exact m1.follows

theorem AddDelta_rule (g : Nat) (type : EToken) : RuleSpec g (AddDelta type) := by
  intro p
  unfold AddDelta
  refine Holds_bind (CurrentToken_moves p) ?_ ?_ False.elim False.elim
  · rintro what p1 ⟨rfl, -⟩
    refine Holds_bind (NextToken_moves p1) ?_ ?_ False.elim False.elim
    · intro num p2 h2
      have f2 : Follows p1 p2 ∧ p2.context = p1.context := by
        rcases h2 with ⟨-, m⟩ | ⟨-, m⟩
        · exact ⟨m.follows, m.2.2⟩
        · exact ⟨m.follows, m.2.2⟩
      refine Holds_bind (New_moves _ p2) ?_ (fun _ => False.elim) False.elim False.elim
      intro delta p3 m3
      refine Holds_bind (NodeAddChildToken_moves _ _ p3) ?_ (fun _ => False.elim) False.elim
        False.elim
      intro _ p4 m4
      refine Holds_bind (NodeAddChildToken_moves _ _ p4) ?_ (fun _ => False.elim) False.elim
        False.elim
      intro _ p5 m5
      have x5 : p5.context = p1.context := by rw [m5.2.2, m4.2.2, m3.2.2, f2.2]
      refine Holds_bind (AddChild_moves _ p5) ?_ (fun _ => False.elim) ?_ False.elim
      · rintro _ p6 ⟨-, m6⟩
        refine Holds_bind (Inc_moves p6) ?_ (fun _ => False.elim) False.elim False.elim
        intro _ p7 m7
        have hx : p7.context = p1.context := by rw [m7.2.2, m6.2.2, x5]
        have hc : p1.currentToken < p7.currentToken := by
          have := m7.2.1
          have := m6.2.1
          have := m5.2.1
          have := m4.2.1
          have := m3.2.1
          have := f2.1.2.1
          omega
        refine Holds_pure ⟨Follows_of ?_ (Nat.le_of_lt hc) (by rw [hx]), fun _ => ⟨hx, hc⟩⟩
        rw [m7.1, m6.1, m5.1, m4.1, m3.1, f2.1.1]
      · intro h
        rw [← x5]
        exact h
    · intro p2 m2
      exact m2.follows
  · rintro p1 rfl
    exact Follows.frefl _

theorem ParseDelta_rule (g : Nat) : RuleSpec g ParseDelta := by
  intro p
  unfold ParseDelta
  refine Holds_bind (NextToken_moves p) ?_ ?_ False.elim False.elim
  · intro tok p1 h1
    have f1 : Follows p p1 ∧ p1.context = p.context := by
      rcases h1 with ⟨-, m⟩ | ⟨-, m⟩
      · exact ⟨m.follows, m.2.2⟩
      · exact ⟨m.follows, m.2.2⟩
    have hred : (AddDelta EToken.Red p1).Holds
        (fun b p' => Follows p p' ∧
          (b = true → p'.context = p.context ∧ p.currentToken < p'.currentToken))
        (fun p' => Follows p p') (p.context = []) (g < p.remaining) := by
      refine Holds_mono (AddDelta_rule g _ p1) ?_ ?_ ?_ ?_
      · rintro b p2 ⟨f2, s2⟩
        refine ⟨f1.1.ftrans f2, fun hb => ⟨?_, ?_⟩⟩
        · rw [(s2 hb).1, f1.2]
        · have := (s2 hb).2
          have := f1.1.2.1
          omega
      · intro p2 f2
        exact f1.1.ftrans f2
      · intro h
        rw [← f1.2]
        exact h
      · intro hg
        have := f1.1.remaining_le
        omega
    have hother : ((pure false : M Bool) p1).Holds
        (fun b p' => Follows p p' ∧
          (b = true → p'.context = p.context ∧ p.currentToken < p'.currentToken))
        (fun p' => Follows p p') (p.context = []) (g < p.remaining) :=
      Holds_pure ⟨f1.1, by simp⟩
    cases hty : tok.type <;> simp only [hty] <;> first | exact hred | exact hother
  · intro p1 m1
    exact m1.follows

theorem AtEnd_moves (p : Parser) :
    (AtEnd p).Holds (fun b p' => p' = p ∧ b = decide (p.tokens.length ≤ p.currentToken))
      (fun _ => False) False False :=
  ⟨rfl, rfl⟩

theorem leaf_statement_rule (g : Nat) (token : Token) (p : Parser) :
    (AddChildToken token p).Holds
      (fun b p' => Follows p p' ∧
        (b = true → p'.context = p.context ∧ p.currentToken < p'.currentToken))
      (fun p' => Follows p p') (p.context = []) (g < p.remaining) := by
  refine Holds_mono (AddChildToken_moves token p) ?_ (fun _ => False.elim) id False.elim
  rintro b p1 ⟨-, m⟩
  exact ⟨m.follows, fun _ => ⟨m.2.2, by rw [m.2.1]; exact Nat.lt_succ_self _⟩⟩

theorem ParseStatement_rule (g : Nat) (ps : M Bool) (hps : LoopSpec g ps) :
    RuleSpec g (ParseStatement g ps) := by
  intro p
  unfold ParseStatement
  refine Holds_bind (AtEnd_moves p) ?_ (fun _ => False.elim) False.elim False.elim
  rintro b1 p1 ⟨rfl, -⟩
  cases b1
  · refine Holds_bind (CurrentTokenType_moves p1) ?_ ?_ False.elim False.elim
    · rintro ty p2 ⟨rfl, -⟩
      have other : ((pure false : M Bool) p2).Holds
          (fun b p' => Follows p2 p' ∧
            (b = true → p'.context = p2.context ∧ p2.currentToken < p'.currentToken))
          (fun p' => Follows p2 p') (p2.context = []) (g < p2.remaining) :=
        Holds_pure ⟨Follows.frefl _, by simp⟩
      cases ty with
      | PenDown => exact leaf_statement_rule g _ p2
      | PenUp => exact leaf_statement_rule g _ p2
      | Quit => exact leaf_statement_rule g _ p2
      | Number =>
        refine Holds_bind (CurrentToken_moves p2) ?_ ?_ False.elim False.elim
        · rintro tok p3 ⟨rfl, -⟩
          exact leaf_statement_rule g _ p3
        · rintro p3 rfl
          exact Follows.frefl _
      | Repeat => exact ParseRepeat_rule g ps hps p2
      | Rotate => exact AddParameterisedCommand_rule g _ p2
      | Move => exact AddParameterisedCommand_rule g _ p2
      | Function => exact ParseFunction_rule g ps hps p2
      | Delta => exact ParseDelta_rule g p2
      | _ => exact other
    · rintro p2 rfl
      exact Follows.frefl _
  · exact Holds_pure ⟨Follows.frefl _, by simp⟩

theorem ParseStatement_true_lt {g : Nat} {ps : M Bool} {p p' : Parser}
    (h : ParseStatement g ps p = Res.ret true p') : p.currentToken < p.tokens.length := by
  unfold ParseStatement at h
  replace h := bind_ret h
  obtain ⟨b1, p1, h1, h⟩ := h
  simp only [AtEnd, Res.ret.injEq] at h1
  obtain ⟨rfl, rfl⟩ := h1
  by_cases hend : p.tokens.length ≤ p.currentToken
  · simp only [hend, decide_True, if_true] at h
    obtain ⟨hb, -⟩ := pure_ret h
    cases hb
  · omega

theorem ParseStatements_strict (fuel : Nat) : Strict (ParseStatements fuel) := by
  intro q c q' hq
  obtain ⟨B, D, -⟩ := ParseStatements_ret fuel q q' c hq
  refine ⟨B, fun hc he => ?_⟩
  rw [hc] at D
  simp [he] at D

theorem ParseStatements_loop (g : Nat) : LoopSpec g (ParseStatements g) := by
  induction g with
  | zero => intro p; exact Nat.zero_le _
  | succ g ih =>
    intro p
    unfold ParseStatements
    refine Holds_bind_eq (ParseStatement_rule g _ ih p) ?_ ?_ id ?_
    · rintro b1 p1 heq ⟨f1, s1⟩
      cases b1
      · have B := (ParseStatement_ret g _ (ParseStatements_strict g) heq).1
        show (HasSucceeded p1).Holds _ _ _ _
        refine ⟨f1, fun hb => ?_⟩
        exact (B.2.2 (by simpa using hb)).2.1
      · obtain ⟨x1, c1⟩ := s1 rfl
        have hlt := ParseStatement_true_lt heq
        refine Holds_mono (ih p1) ?_ ?_ ?_ ?_
        · rintro b2 p2 ⟨f2, s2⟩
          exact ⟨f1.ftrans f2, fun hb => (s2 hb).trans x1⟩
        · intro p2 f2
          exact f1.ftrans f2
        · intro h
          rw [← x1]
          exact h
        · intro hg
          simp only [Parser.remaining, f1.1] at hg ⊢
          omega
    · intro p1 f1
      exact f1
    · intro hg
      omega

theorem Run_holds (fuel : Nat) (p : Parser) :
    (Run fuel p).Holds
      (fun b p' => Follows p p' ∧ (b = true → p'.context = p.context) ∧
        (b = false → p'.errors ≠ []))
      (fun _ => False) (p.context = []) (fuel ≤ p.remaining) := by
  have hl := ParseStatements_loop fuel p
  unfold Run
  cases hr : ParseStatements fuel p with
  | ret b p1 =>
    rw [hr] at hl
    obtain ⟨-, D, -⟩ := ParseStatements_ret fuel p p1 b hr
    refine ⟨hl.1, hl.2, fun hb he => ?_⟩
    rw [hb] at D
    simp [he] at D
  | throw msg p1 =>
    rw [hr] at hl
    exact ⟨Follows_of hl.1 hl.2.1 hl.2.2, by simp, by simp⟩
  | undef => rw [hr] at hl; exact hl
  | outOfFuel => rw [hr] at hl; exact hl

/-! ## More fuel does not change an outcome -/

theorem FuelLe.fuel_refl {α : Type} (m : M α) : FuelLe m m := fun _ => Or.inr rfl

theorem FuelLe.fuel_trans {α : Type} {a b c : M α} (h1 : FuelLe a b) (h2 : FuelLe b c) :
    FuelLe a c := by
  intro p
  rcases h1 p with h | h
  · exact Or.inl h
  · rcases h2 p with h' | h'
    · exact Or.inl (h.symm.trans h')
    · exact Or.inr (h'.trans h)

theorem FuelLe_bind {α β : Type} {m m' : M α} {f f' : α → M β} (hm : FuelLe m m')
    (hf : ∀ a, FuelLe (f a) (f' a)) : FuelLe (m >>= f) (m' >>= f') := by
  intro p
  show M.bind m f p = _ ∨ M.bind m' f' p = M.bind m f p
  unfold M.bind
  rcases hm p with h | h
  · left; rw [h]
  · rw [h]
    cases hr : m p with
    | ret a p1 => exact hf a p1
    | throw msg p1 => exact Or.inr rfl
    | undef => exact Or.inr rfl
    | outOfFuel => exact Or.inl rfl

theorem FuelLe_ite {α : Type} (c : Prop) [Decidable c] {a a' b b' : M α}
    (ha : FuelLe a a') (hb : FuelLe b b') :
    FuelLe (if c then a else b) (if c then a' else b') := by
  split
  · exact ha
  · exact hb

theorem ParseStatementBlock_fuel {ps ps' : M Bool} (h : FuelLe ps ps') :
    FuelLe (ParseStatementBlock ps) (ParseStatementBlock ps') := by
  unfold ParseStatementBlock
  refine FuelLe_bind (FuelLe.fuel_refl _) (fun b1 => FuelLe_ite _ (FuelLe.fuel_refl _) ?_)
  exact FuelLe_bind h (fun b2 => FuelLe.fuel_refl _)

theorem AddStatementBlock_fuel {ps ps' : M Bool} (h : FuelLe ps ps') :
    FuelLe (AddStatementBlock ps) (AddStatementBlock ps') := by
  unfold AddStatementBlock
  refine FuelLe_bind (FuelLe.fuel_refl _) (fun node => ?_)
  refine FuelLe_bind (FuelLe.fuel_refl _) (fun _ => ?_)
  exact FuelLe_bind (ParseStatementBlock_fuel h) (fun b => FuelLe.fuel_refl _)

theorem ParseRepeat_fuel {ps ps' : M Bool} (h : FuelLe ps ps') :
    FuelLe (ParseRepeat ps) (ParseRepeat ps') := by
  unfold ParseRepeat
  refine FuelLe_bind (FuelLe.fuel_refl _) (fun b1 => FuelLe_ite _ (FuelLe.fuel_refl _) ?_)
  refine FuelLe_bind (FuelLe.fuel_refl _) (fun node => ?_)
  refine FuelLe_bind (FuelLe.fuel_refl _) (fun _ => ?_)
  refine FuelLe_bind (FuelLe.fuel_refl _) (fun tok => ?_)
  refine FuelLe_bind (FuelLe.fuel_refl _) (fun _ => ?_)
  exact FuelLe_bind (ParseStatementBlock_fuel h) (fun b => FuelLe.fuel_refl _)

theorem AddArgumentsLoop_fuel (g : Nat) :
    FuelLe (AddArgumentsLoop g) (AddArgumentsLoop (g + 1)) := by
  induction g with
  | zero => intro p; exact Or.inl rfl
  | succ g ih =>
    rw [AddArgumentsLoop, AddArgumentsLoop]
    refine FuelLe_bind (FuelLe.fuel_refl _) (fun b1 => FuelLe_ite _ ?_ (FuelLe.fuel_refl _))
    refine FuelLe_bind (FuelLe.fuel_refl _) (fun b2 => FuelLe_ite _ (FuelLe.fuel_refl _) ?_)
    exact FuelLe_bind (FuelLe.fuel_refl _) (fun _ => ih)

theorem AddArguments_fuel (g : Nat) : FuelLe (AddArguments g) (AddArguments (g + 1)) := by
  unfold AddArguments
  refine FuelLe_bind (FuelLe.fuel_refl _) (fun b1 => FuelLe_ite _ (FuelLe.fuel_refl _) ?_)
  refine FuelLe_bind (FuelLe.fuel_refl _) (fun args => ?_)
  refine FuelLe_bind (FuelLe.fuel_refl _) (fun _ => ?_)
  exact FuelLe_bind (AddArgumentsLoop_fuel g) (fun _ => FuelLe.fuel_refl _)

theorem ParseFunction_fuel (g : Nat) {ps ps' : M Bool} (h : FuelLe ps ps') :
    FuelLe (ParseFunction g ps) (ParseFunction (g + 1) ps') := by
  unfold ParseFunction
  refine FuelLe_bind (FuelLe.fuel_refl _) (fun tok => ?_)
  refine FuelLe_bind (FuelLe.fuel_refl _) (fun funName => ?_)
  refine FuelLe_bind (FuelLe.fuel_refl _) (fun b1 => FuelLe_ite _ (FuelLe.fuel_refl _) ?_)
  refine FuelLe_bind (FuelLe.fuel_refl _) (fun node => ?_)
  refine FuelLe_bind (FuelLe.fuel_refl _) (fun leaf => ?_)
  refine FuelLe_bind (FuelLe.fuel_refl _) (fun _ => ?_)
  refine FuelLe_bind (FuelLe.fuel_refl _) (fun _ => ?_)
  refine FuelLe_bind (AddArguments_fuel g) (fun b2 => FuelLe_ite _ (FuelLe.fuel_refl _) ?_)
  exact FuelLe_bind (AddStatementBlock_fuel h) (fun b3 => FuelLe.fuel_refl _)

theorem ParseStatement_fuel (g : Nat) {ps ps' : M Bool} (h : FuelLe ps ps') :
    FuelLe (ParseStatement g ps) (ParseStatement (g + 1) ps') := by
  unfold ParseStatement
  refine FuelLe_bind (FuelLe.fuel_refl _) (fun b1 => FuelLe_ite _ (FuelLe.fuel_refl _) ?_)
  refine FuelLe_bind (FuelLe.fuel_refl _) (fun ty => ?_)
  cases ty with
  | Repeat => exact ParseRepeat_fuel h
  | Function => exact ParseFunction_fuel g h
  | _ => exact FuelLe.fuel_refl _

theorem ParseStatements_fuel (g : Nat) :
    FuelLe (ParseStatements g) (ParseStatements (g + 1)) := by
  induction g with
  | zero => intro p; exact Or.inl rfl
  | succ g ih =>
    rw [ParseStatements, ParseStatements]
    exact FuelLe_bind (ParseStatement_fuel g ih)
      (fun b => FuelLe_ite _ ih (FuelLe.fuel_refl _))

theorem ParseStatements_fuel_le {g g' : Nat} (h : g ≤ g') :
    FuelLe (ParseStatements g) (ParseStatements g') := by
  induction h with
  | refl => exact FuelLe.fuel_refl _
  | step _ ih => exact ih.fuel_trans (ParseStatements_fuel _)

theorem Run_fuel_le {g g' : Nat} (h : g ≤ g') : FuelLe (Run g) (Run g') := by
  intro p
  unfold Run
  rcases ParseStatements_fuel_le h p with e | e
  · left; rw [e]
  · right; rw [e]

/-! ## Nothing is undone: the arena and the chain of open nodes -/

theorem heap_lt {h : List AstNode} {i : Nat} {n : AstNode} (hn : h[i]? = some n) :
    i < h.length := by
  by_contra hc
  rw [List.getElem?_eq_none (by omega)] at hn
  cases hn

theorem OpenChain.dropLast {h : List AstNode} :
    ∀ {ctx : List AstNodePtr}, OpenChain h ctx → OpenChain h ctx.dropLast
  | [], _ => trivial
  | [_], _ => trivial
  | [a, b], c => by
    obtain ⟨⟨n, hn, -⟩, -, -⟩ := c
    exact heap_lt hn
  | a :: b :: d :: rest, c => by
    have ih := OpenChain.dropLast c.2.2
    exact ⟨c.1, c.2.1, ih⟩

/-- C1: for all Number tokens `n` and `m`, running the parser on the tokens of
"repeat 4 { move 10 }" succeeds with enough fuel (any amount from 4 on), `GetRoot` returns
the root, and the root has exactly one child, a `Repeat` node whose first child is the leaf
holding `n` and whose second child is a `Move` node whose only child is the leaf holding
`m`. -/
theorem C1_repeat_move_tree (k0 k2 k3 k5 : StringSplice) (n m : Token)
    (hn : n.type = EToken.Number) (hm : m.type = EToken.Number) (fuel : Nat) :
    ∃ p root,
      (Parser.New [⟨EToken.Repeat, k0⟩, n, ⟨EToken.OpenBrace, k2⟩, ⟨EToken.Move, k3⟩, m,
          ⟨EToken.CloseBrace, k5⟩]).andThen (fun _ => Run (fuel + 4)) = Res.ret true p ∧
      GetRoot p = Res.ret (some root) p ∧
      p.tree root = some (Tree.node EToken.Start none
        [Tree.node EToken.Repeat none
          [Tree.leaf n, Tree.node EToken.Move none [Tree.leaf m]]]) := by
  obtain ⟨tn, sn⟩ := n
  obtain ⟨tm, sm⟩ := m
  simp only at hn hm
  subst hn hm
  refine ⟨_, 0, run_repeat_move k0 k2 k3 k5 sn sm fuel, ?_, ?_⟩
  · simp [GetRoot]
  · simp [Parser.tree, toTree, allSome, Tree.leaf]

/-- C1 at the tokens of "repeat 4 { move 10 }" with their source spans. -/
theorem C1_repeat_move_tree_witness :
    (⟨EToken.Number, ⟨7, 1⟩⟩ : Token).type = EToken.Number ∧
    (⟨EToken.Number, ⟨16, 2⟩⟩ : Token).type = EToken.Number ∧
    ∃ p root,
      (Parser.New [⟨EToken.Repeat, ⟨0, 6⟩⟩, ⟨EToken.Number, ⟨7, 1⟩⟩, ⟨EToken.OpenBrace, ⟨9, 1⟩⟩,
          ⟨EToken.Move, ⟨11, 4⟩⟩, ⟨EToken.Number, ⟨16, 2⟩⟩,
          ⟨EToken.CloseBrace, ⟨19, 1⟩⟩]).andThen (fun _ => Run (0 + 4)) = Res.ret true p ∧
      GetRoot p = Res.ret (some root) p ∧
      p.tree root = some (Tree.node EToken.Start none
        [Tree.node EToken.Repeat none
          [Tree.leaf ⟨EToken.Number, ⟨7, 1⟩⟩,
           Tree.node EToken.Move none [Tree.leaf ⟨EToken.Number, ⟨16, 2⟩⟩]]]) :=
  ⟨rfl, rfl,
    C1_repeat_move_tree ⟨0, 6⟩ ⟨9, 1⟩ ⟨11, 4⟩ ⟨19, 1⟩ ⟨EToken.Number, ⟨7, 1⟩⟩
      ⟨EToken.Number, ⟨16, 2⟩⟩ rfl rfl 0⟩

/-- C2: on the tokens of "function f(a,b) { penup }", whatever the spans of the
tokens, `Run` returns `false` for every fuel from 2 on: the argument loop attaches one
`Identifier` leaf holding a fresh `Token(Identifier)` (not `a`), `Peek(Comma)` looks at the
token after the comma, and `Expect(CloseParan)` meets the comma.  The context stack is left
with three entries, so `GetRoot` returns no node either. -/
theorem C2_function_two_args_rejected (k0 k2 k4 k6 k7 k8 k9 sf sa sb : StringSplice)
    (fuel : Nat) :
    ∃ p p',
      (Parser.New [⟨EToken.Function, k0⟩, ⟨EToken.Identifier, sf⟩, ⟨EToken.OpenParan, k2⟩,
        ⟨EToken.Identifier, sa⟩, ⟨EToken.Comma, k4⟩, ⟨EToken.Identifier, sb⟩,
        ⟨EToken.CloseParan, k6⟩, ⟨EToken.OpenBrace, k7⟩, ⟨EToken.PenUp, k8⟩,
        ⟨EToken.CloseBrace, k9⟩]).andThen (fun _ => Run (fuel + 2)) = Res.ret false p ∧
      p.errors = [Diag.expected EToken.CloseParan EToken.Comma,
        Diag.text "Failed to parse arguments"] ∧
      p.context = [0, 1, 3] ∧
      p.heap[3]? = some ⟨EToken.ArgList, none, [4]⟩ ∧
      p.heap[4]? = some ⟨EToken.Identifier, some (Token.ofType EToken.Identifier), []⟩ ∧
      GetRoot p = Res.ret none p' :=
  ⟨_, _, run_function_two_args k0 k2 k4 k6 k7 k8 k9 sf sa sb fuel, rfl, rfl, rfl, rfl, rfl⟩

/-- C3: for every token list made only of leaf statements (`PenDown`, `PenUp`, `Quit`
and `Number` tokens), `Run` succeeds for every fuel above the number of tokens, `GetRoot`
returns the root, and the root has exactly one child per token, in input order, each a
childless node of the kind of its token (holding the token itself for a `Number` and a
fresh `Token(type)` for a keyword). -/
theorem C3_leaf_statements (toks : List Token)
    (h : ∀ t ∈ toks, t.type = EToken.PenDown ∨ t.type = EToken.PenUp ∨
      t.type = EToken.Quit ∨ t.type = EToken.Number) (extra : Nat) :
    ∃ p root,
      (Parser.New toks).andThen (fun _ => Run (toks.length + 1 + extra)) = Res.ret true p ∧
      GetRoot p = Res.ret (some root) p ∧
      p.tree root = some (Tree.node EToken.Start none
        (toks.map (fun t => Tree.node t.type (some (leafPayload t)) []))) := by
  have hleaf : ∀ t ∈ toks, IsLeafStatement t.type = true := by
    intro t ht
    rcases h t ht with e | e | e | e <;> rw [e] <;> rfl
  have hf : toks.filter (fun t => t.type ≠ EToken.WhiteSpace) = toks := by
    rw [List.filter_eq_self]
    intro t ht
    rcases h t ht with e | e | e | e <;> simp [e]
  have hrun := leaves_run extra toks [] [] [] [] hleaf
  simp only [List.nil_append, List.length_nil, Nat.zero_add] at hrun
  refine ⟨{ tokens := toks, currentToken := toks.length, context := [0],
            heap := ⟨EToken.Start, none, List.range' 1 toks.length⟩ :: toks.map leafNode },
    0, ?_, ?_, ?_⟩
  · rw [Parser.New_eq, hf]
    show Run (toks.length + 1 + extra) _ = _
    unfold Run
    rw [hrun]
  · simp [GetRoot]
  · simp only [Parser.tree, List.length_cons, List.length_map]
    exact tree_of_leaves toks

/-- C3 at the single statement "pendown": the root gets exactly one childless `PenDown`
child. -/
theorem C3_leaf_statements_witness :
    (∀ t ∈ ([⟨EToken.PenDown, ⟨0, 7⟩⟩] : List Token), t.type = EToken.PenDown ∨
      t.type = EToken.PenUp ∨ t.type = EToken.Quit ∨ t.type = EToken.Number) ∧
    ∃ p root,
      (Parser.New [⟨EToken.PenDown, ⟨0, 7⟩⟩]).andThen
        (fun _ => Run ([(⟨EToken.PenDown, ⟨0, 7⟩⟩ : Token)].length + 1 + 0)) = Res.ret true p ∧
      GetRoot p = Res.ret (some root) p ∧
      p.tree root = some (Tree.node EToken.Start none
        ([(⟨EToken.PenDown, ⟨0, 7⟩⟩ : Token)].map
          (fun t => Tree.node t.type (some (leafPayload t)) []))) :=
  ⟨by simp, C3_leaf_statements [⟨EToken.PenDown, ⟨0, 7⟩⟩] (by simp) 0⟩

/-- C4: for all Number tokens `n` and `m`, running the parser on the tokens of
"repeat 4 { move 10" returns failure for every fuel from 3 on, the context stack is left
with more than one entry, and a following `GetRoot` records "Unbalanced parse tree" and
returns no node. -/
theorem C4_unclosed_repeat_fails (k0 k2 k3 : StringSplice) (n m : Token)
    (hn : n.type = EToken.Number) (hm : m.type = EToken.Number) (fuel : Nat) :
    ∃ p,
      (Parser.New [⟨EToken.Repeat, k0⟩, n, ⟨EToken.OpenBrace, k2⟩, ⟨EToken.Move, k3⟩,
          m]).andThen (fun _ => Run (fuel + 3)) = Res.ret false p ∧
      1 < p.context.length ∧
      GetRoot p = Res.ret none
        { p with errors := p.errors ++ [Diag.text "Unbalanced parse tree"] } := by
  obtain ⟨tn, sn⟩ := n
  obtain ⟨tm, sm⟩ := m
  simp only at hn hm
  subst hn hm
  refine ⟨_, run_repeat_unclosed k0 k2 k3 sn sm fuel, ?_, ?_⟩
  · simp
  · simp [GetRoot]

/-- C4 at the tokens of "repeat 4 { move 10" with their source spans. -/
theorem C4_unclosed_repeat_fails_witness :
    (⟨EToken.Number, ⟨7, 1⟩⟩ : Token).type = EToken.Number ∧
    (⟨EToken.Number, ⟨16, 2⟩⟩ : Token).type = EToken.Number ∧
    ∃ p,
      (Parser.New [⟨EToken.Repeat, ⟨0, 6⟩⟩, ⟨EToken.Number, ⟨7, 1⟩⟩, ⟨EToken.OpenBrace, ⟨9, 1⟩⟩,
          ⟨EToken.Move, ⟨11, 4⟩⟩, ⟨EToken.Number, ⟨16, 2⟩⟩]).andThen
        (fun _ => Run (0 + 3)) = Res.ret false p ∧
      1 < p.context.length ∧
      GetRoot p = Res.ret none
        { p with errors := p.errors ++ [Diag.text "Unbalanced parse tree"] } :=
  ⟨rfl, rfl,
    C4_unclosed_repeat_fails ⟨0, 6⟩ ⟨9, 1⟩ ⟨11, 4⟩ ⟨EToken.Number, ⟨7, 1⟩⟩
      ⟨EToken.Number, ⟨16, 2⟩⟩ rfl rfl 0⟩

/-- C5: for every lexer output made only of `WhiteSpace` tokens (the empty output
included), the parser constructed from it has an empty working token list, `Run` returns
success for every fuel from 1 on, and `GetRoot` returns a `Start` root without
children. -/
theorem C5_whitespace_only (lexer : List Token)
    (h : ∀ t ∈ lexer, t.type = EToken.WhiteSpace) (fuel : Nat) :
    ∃ p root,
      Parser.New lexer = Res.ret () p ∧ p.tokens = [] ∧
      Run (fuel + 1) p = Res.ret true p ∧
      GetRoot p = Res.ret (some root) p ∧
      p.tree root = some (Tree.node EToken.Start none []) := by
  have hf : lexer.filter (fun t => t.type ≠ EToken.WhiteSpace) = [] := by
    rw [List.filter_eq_nil_iff]
    intro t ht
    simp [h t ht]
  refine ⟨{ context := [0], heap := [⟨EToken.Start, none, []⟩] }, 0, ?_, rfl, ?_, ?_, ?_⟩
  · rw [Parser.New_eq, hf]
  · simp [Run, ParseStatements, ParseStatement, AtEnd, HasSucceeded, bind, M.bind, pure]
  · simp [GetRoot]
  · simp [Parser.tree, toTree, allSome]

/-- C5 at a lexer output of two whitespace tokens. -/
theorem C5_whitespace_only_witness :
    (∀ t ∈ ([⟨EToken.WhiteSpace, ⟨0, 1⟩⟩, ⟨EToken.WhiteSpace, ⟨1, 2⟩⟩] : List Token),
      t.type = EToken.WhiteSpace) ∧
    ∃ p root,
      Parser.New [⟨EToken.WhiteSpace, ⟨0, 1⟩⟩, ⟨EToken.WhiteSpace, ⟨1, 2⟩⟩] = Res.ret () p ∧
      p.tokens = [] ∧
      Run (0 + 1) p = Res.ret true p ∧
      GetRoot p = Res.ret (some root) p ∧
      p.tree root = some (Tree.node EToken.Start none []) :=
  ⟨by simp, C5_whitespace_only _ (by simp) 0⟩

/-- C6: for every parser state, `GetRoot` fails (returns no node and records "Unbalanced
parse tree") if and only if the context stack does not hold exactly one entry; when it
holds exactly one entry, `GetRoot` returns that entry and records nothing. -/
theorem C6_GetRoot (p : Parser) :
    ((∃ p', GetRoot p = Res.ret none p' ∧
        p'.errors = p.errors ++ [Diag.text "Unbalanced parse tree"]) ↔ p.context.length ≠ 1) ∧
    (∀ entry, p.context = [entry] → GetRoot p = Res.ret (some entry) p) := by
  constructor
  · by_cases hc : p.context.length = 1
    · obtain ⟨e, he⟩ := List.length_eq_one.mp hc
      simp [GetRoot, he]
    · simp [GetRoot, hc]
  · intro entry he
    simp [GetRoot, he]

/-- C6 at the state that `Parser(lexer)` leaves for an empty lexer output. -/
theorem C6_GetRoot_witness :
    (({ context := [0], heap := [⟨EToken.Start, none, []⟩] } : Parser).context = [0]) ∧
    GetRoot { context := [0], heap := [⟨EToken.Start, none, []⟩] } =
      Res.ret (some 0) { context := [0], heap := [⟨EToken.Start, none, []⟩] } :=
  ⟨rfl, (C6_GetRoot { context := [0], heap := [⟨EToken.Start, none, []⟩] }).2 0 rfl⟩

/-- C7: for every lexer output and every fuel, if `Run` on the parser constructed from it
returns success, then the context stack holds exactly one entry, that entry is the `Start`
node that the constructor pushed, and `GetRoot` returns it without recording a failure:
every node entered during a successful parse has been left again. -/
theorem C7_success_leaves_only_root (lexer : List Token) (fuel : Nat) (p' : Parser)
    (h : (Parser.New lexer).andThen (fun _ => Run fuel) = Res.ret true p') :
    p'.context.length = 1 ∧
    ∃ root n, p'.context = [root] ∧ p'.heap[root]? = some n ∧ n.kind = EToken.Start ∧
      GetRoot p' = Res.ret (some root) p' := by
  obtain ⟨-, X, -, -, C, -, -⟩ := Run_true_spec (andThen_New h)
  obtain ⟨n, hn, hk, -⟩ := X 0 ⟨EToken.Start, none, []⟩ rfl
  have hc : p'.context = [0] := C
  exact ⟨by rw [hc]; rfl, 0, n, hc, hn, hk, by simp [GetRoot, hc]⟩

/-- C7 at the single statement "pendown". -/
theorem C7_success_leaves_only_root_witness :
    (Parser.New [⟨EToken.PenDown, ⟨0, 7⟩⟩]).andThen (fun _ => Run 2) = Res.ret true
      { tokens := [⟨EToken.PenDown, ⟨0, 7⟩⟩], currentToken := 1, context := [0],
        heap := [⟨EToken.Start, none, [1]⟩,
          ⟨EToken.PenDown, some (Token.ofType EToken.PenDown), []⟩] } ∧
    ({ tokens := [⟨EToken.PenDown, ⟨0, 7⟩⟩], currentToken := 1, context := [0],
        heap := [⟨EToken.Start, none, [1]⟩,
          ⟨EToken.PenDown, some (Token.ofType EToken.PenDown), []⟩] } : Parser).context.length
      = 1 :=
  ⟨run_pendown 0, (C7_success_leaves_only_root _ 2 _ (run_pendown 0)).1⟩

/-- C8, the claim as stated fails: on the single token `}` `Run` returns success with the
cursor at 0 although the filtered token list has length 1, and on the two tokens
`delta pendown` it returns success with the cursor at 1 although the list has length 2. -/
theorem C8_success_without_consuming_all :
    (∃ p, (Parser.New [⟨EToken.CloseBrace, ⟨0, 1⟩⟩]).andThen (fun _ => Run 1) = Res.ret true p ∧
      p.currentToken = 0 ∧ p.tokens.length = 1) ∧
    (∃ p, (Parser.New [⟨EToken.Delta, ⟨0, 5⟩⟩, ⟨EToken.PenDown, ⟨6, 7⟩⟩]).andThen
        (fun _ => Run 1) = Res.ret true p ∧
      p.currentToken = 1 ∧ p.tokens.length = 2) :=
  ⟨⟨_, run_close_brace 0, rfl, rfl⟩, ⟨_, run_delta_pendown 0, rfl, rfl⟩⟩

/-- C8 as amended: for every lexer output and every fuel, if `Run` returns success then
the cursor is at most the length of the filtered token list, and it equals that length
unless the statement loop stopped at a token that matched no statement: a token whose kind
starts no statement, or the token behind a `delta` keyword when it is not `Red`. -/
theorem C8_success_cursor (lexer : List Token) (fuel : Nat) (p' : Parser)
    (h : (Parser.New lexer).andThen (fun _ => Run fuel) = Res.ret true p') :
    p'.tokens = lexer.filter (fun t => t.type ≠ EToken.WhiteSpace) ∧
    p'.currentToken ≤ p'.tokens.length ∧
    (p'.currentToken = p'.tokens.length ∨ StoppedAtNonStatement p' ∨
      StoppedBehindDelta p') := by
  obtain ⟨T, -, -, -, -, L, S⟩ := Run_true_spec (andThen_New h)
  have hle : p'.currentToken ≤ p'.tokens.length := by
    rw [T]
    exact L (Nat.zero_le _)
  refine ⟨T, hle, ?_⟩
  rcases S with s | s | s
  · exact Or.inl (Nat.le_antisymm hle s)
  · exact Or.inr (Or.inl s)
  · exact Or.inr (Or.inr s)

/-- C8 as amended, at the two tokens `pendown }`: the parse succeeds with the cursor at the
closing brace. -/
theorem C8_success_cursor_witness :
    (Parser.New [⟨EToken.PenDown, ⟨0, 7⟩⟩, ⟨EToken.CloseBrace, ⟨8, 1⟩⟩]).andThen
      (fun _ => Run 2) = Res.ret true
      { tokens := [⟨EToken.PenDown, ⟨0, 7⟩⟩, ⟨EToken.CloseBrace, ⟨8, 1⟩⟩], currentToken := 1,
        context := [0],
        heap := [⟨EToken.Start, none, [1]⟩,
          ⟨EToken.PenDown, some (Token.ofType EToken.PenDown), []⟩] } ∧
    StoppedAtNonStatement
      { tokens := [⟨EToken.PenDown, ⟨0, 7⟩⟩, ⟨EToken.CloseBrace, ⟨8, 1⟩⟩], currentToken := 1,
        context := [0],
        heap := [⟨EToken.Start, none, [1]⟩,
          ⟨EToken.PenDown, some (Token.ofType EToken.PenDown), []⟩] } :=
  ⟨run_pendown_close_brace 0,
    ((C8_success_cursor _ 2 _ (run_pendown_close_brace 0)).2.2.resolve_left
      (by decide)).resolve_right
      (by rintro ⟨d, t, -, hd, hdt, -, -⟩; simp at hd; subst hd; simp at hdt)⟩

/-- C9: a successful parse need not consume as many closing as opening brackets.  On the
tokens of "function f ( ( ) { }" `Run` returns success, the cursor has passed all seven
tokens, and two `OpenParan` but only one `CloseParan` were consumed; on the tokens of
"function f ( { ) { }" two `OpenBrace` but only one `CloseBrace` were consumed.  The
token in the argument position is consumed by `AddChild(EToken::Identifier)` without being
looked at.  On the tokens of "delta red {" the parse succeeds as well, `AddDelta` having
consumed the opening brace as the amount. -/
theorem C9_consumed_brackets_unbalanced (k0 k2 k3 k4 k5 k6 sf : StringSplice) (fuel : Nat) :
    (∃ p,
      (Parser.New [⟨EToken.Function, k0⟩, ⟨EToken.Identifier, sf⟩, ⟨EToken.OpenParan, k2⟩,
        ⟨EToken.OpenParan, k3⟩, ⟨EToken.CloseParan, k4⟩, ⟨EToken.OpenBrace, k5⟩,
        ⟨EToken.CloseBrace, k6⟩]).andThen (fun _ => Run (fuel + 3)) = Res.ret true p ∧
      p.currentToken = p.tokens.length ∧
      countKind EToken.OpenParan p.consumed = 2 ∧
      countKind EToken.CloseParan p.consumed = 1) ∧
    (∃ p,
      (Parser.New [⟨EToken.Function, k0⟩, ⟨EToken.Identifier, sf⟩, ⟨EToken.OpenParan, k2⟩,
        ⟨EToken.OpenBrace, k3⟩, ⟨EToken.CloseParan, k4⟩, ⟨EToken.OpenBrace, k5⟩,
        ⟨EToken.CloseBrace, k6⟩]).andThen (fun _ => Run (fuel + 3)) = Res.ret true p ∧
      p.currentToken = p.tokens.length ∧
      countKind EToken.OpenBrace p.consumed = 2 ∧
      countKind EToken.CloseBrace p.consumed = 1) ∧
    (∃ p,
      (Parser.New [⟨EToken.Delta, k0⟩, ⟨EToken.Red, k2⟩, ⟨EToken.OpenBrace, k3⟩]).andThen
        (fun _ => Run (fuel + 3)) = Res.ret true p ∧
      p.currentToken = p.tokens.length ∧
      countKind EToken.OpenBrace p.consumed = 1 ∧
      countKind EToken.CloseBrace p.consumed = 0) :=
  ⟨⟨_, run_function_paren_arg k0 k2 k3 k4 k5 k6 sf fuel, rfl, by
      simp [countKind, Parser.consumed], by simp [countKind, Parser.consumed]⟩,
   ⟨_, run_function_brace_arg k0 k2 k3 k4 k5 k6 sf fuel, rfl, by
      simp [countKind, Parser.consumed], by simp [countKind, Parser.consumed]⟩,
   ⟨_, run_delta_red_brace k0 k2 k3 (fuel + 1), rfl, by
      simp [countKind, Parser.consumed], by simp [countKind, Parser.consumed]⟩⟩

/-- C10: on the tokens of "function f ( ) { }", whatever their spans, `Run` returns
`false` for every fuel from 2 on: the argument loop consumes the closing parenthesis as an
argument and attaches an `Identifier` leaf for it, so the `ArgList` node has one child and
`Expect(CloseParan)` meets the opening brace. -/
theorem C10_empty_arglist_rejected (k0 k2 k3 k4 k5 sf : StringSplice) (fuel : Nat) :
    ∃ p p',
      (Parser.New [⟨EToken.Function, k0⟩, ⟨EToken.Identifier, sf⟩, ⟨EToken.OpenParan, k2⟩,
        ⟨EToken.CloseParan, k3⟩, ⟨EToken.OpenBrace, k4⟩, ⟨EToken.CloseBrace, k5⟩]).andThen
        (fun _ => Run (fuel + 2)) = Res.ret false p ∧
      p.errors = [Diag.expected EToken.CloseParan EToken.OpenBrace,
        Diag.text "Failed to parse arguments"] ∧
      p.context = [0, 1, 3] ∧
      p.heap[3]? = some ⟨EToken.ArgList, none, [4]⟩ ∧
      p.heap[4]? = some ⟨EToken.Identifier, some (Token.ofType EToken.Identifier), []⟩ ∧
      GetRoot p = Res.ret none p' :=
  ⟨_, _, run_function_no_args k0 k2 k3 k4 k5 sf fuel, rfl, rfl, rfl, rfl, rfl⟩

/-- C11: for every Number token `n`, running the parser on the tokens of "delta red n"
succeeds for every fuel from 2 on, leaves the cursor at 3 (it started at 0), and attaches
to the root exactly one `Delta` node with exactly two children: the leaf holding the `Red`
token, then the leaf holding `n`. -/
theorem C11_delta_red_number (k0 k1 : StringSplice) (n : Token)
    (hn : n.type = EToken.Number) (fuel : Nat) :
    ∃ p root,
      (Parser.New [⟨EToken.Delta, k0⟩, ⟨EToken.Red, k1⟩, n]).andThen
        (fun _ => Run (fuel + 2)) = Res.ret true p ∧
      p.currentToken = 3 ∧
      GetRoot p = Res.ret (some root) p ∧
      p.tree root = some (Tree.node EToken.Start none
        [Tree.node EToken.Delta none [Tree.leaf ⟨EToken.Red, k1⟩, Tree.leaf n]]) := by
  obtain ⟨tn, sn⟩ := n
  simp only at hn
  subst hn
  refine ⟨_, 0, run_delta_red_number k0 k1 sn fuel, rfl, ?_, ?_⟩
  · simp [GetRoot]
  · simp [Parser.tree, toTree, allSome, Tree.leaf]

/-- C11 at the tokens of "delta red 5" with their source spans. -/
theorem C11_delta_red_number_witness :
    (⟨EToken.Number, ⟨10, 1⟩⟩ : Token).type = EToken.Number ∧
    ∃ p root,
      (Parser.New [⟨EToken.Delta, ⟨0, 5⟩⟩, ⟨EToken.Red, ⟨6, 3⟩⟩,
          ⟨EToken.Number, ⟨10, 1⟩⟩]).andThen (fun _ => Run (0 + 2)) = Res.ret true p ∧
      p.currentToken = 3 ∧
      GetRoot p = Res.ret (some root) p ∧
      p.tree root = some (Tree.node EToken.Start none
        [Tree.node EToken.Delta none
          [Tree.leaf ⟨EToken.Red, ⟨6, 3⟩⟩, Tree.leaf ⟨EToken.Number, ⟨10, 1⟩⟩]]) :=
  ⟨rfl, C11_delta_red_number ⟨0, 5⟩ ⟨6, 3⟩ ⟨EToken.Number, ⟨10, 1⟩⟩ rfl 0⟩

/-- C12: for every parser state whose current token is `Repeat`, `Rotate` or `Move` and
whose following token is not a `Number` or does not exist, the rule that `ParseStatement`
dispatches to (`ParseRepeat`, `ParseRotate`, `ParseMove`) returns `false` and leaves the
state as it was except for the recorded diagnostic "Number expected": no node is attached,
and the cursor, the context stack and the arena are unchanged. -/
theorem C12_number_expected (fuel : Nat) (ps : M Bool) (p : Parser) (cur : Token)
    (hcur : p.tokens[p.currentToken]? = some cur)
    (hnext : ∀ t, p.tokens[p.currentToken + 1]? = some t → t.type ≠ EToken.Number) :
    (cur.type = EToken.Repeat →
      ParseRepeat ps p =
        Res.ret false { p with errors := p.errors ++ [Diag.text "Number expected"] } ∧
      ParseStatement fuel ps p = ParseRepeat ps p) ∧
    (cur.type = EToken.Rotate →
      ParseRotate p =
        Res.ret false { p with errors := p.errors ++ [Diag.text "Number expected"] } ∧
      ParseStatement fuel ps p = ParseRotate p) ∧
    (cur.type = EToken.Move →
      ParseMove p =
        Res.ret false { p with errors := p.errors ++ [Diag.text "Number expected"] } ∧
      ParseStatement fuel ps p = ParseMove p) := by
  have hpeek : Peek EToken.Number p = Res.ret false p := by
    unfold Peek
    cases ht : p.tokens[p.currentToken + 1]? with
    | none => rfl
    | some t => simp [hnext t ht]
  have hlt : ¬ p.tokens.length ≤ p.currentToken := by
    have := getElem?_lt hcur
    omega
  refine ⟨fun hk => ⟨?_, ?_⟩, fun hk => ⟨?_, ?_⟩, fun hk => ⟨?_, ?_⟩⟩
  · simp [ParseRepeat, bind, M.bind, hpeek, Fail]
  · simp [ParseStatement, AtEnd, CurrentTokenType, CurrentToken, TokensAt, bind, M.bind, pure,
      hlt, hcur, hk]
  · simp [ParseRotate, AddParameterisedCommand, bind, M.bind, pure, hpeek, FailWith]
  · simp [ParseStatement, AtEnd, CurrentTokenType, CurrentToken, TokensAt, bind, M.bind, pure,
      hlt, hcur, hk]
  · simp [ParseMove, AddParameterisedCommand, bind, M.bind, pure, hpeek, FailWith]
  · simp [ParseStatement, AtEnd, CurrentTokenType, CurrentToken, TokensAt, bind, M.bind, pure,
      hlt, hcur, hk]

/-- C12 at the state that `Parser(lexer)` leaves for the tokens of "move penup". -/
theorem C12_number_expected_witness :
    ({ tokens := [⟨EToken.Move, ⟨0, 4⟩⟩, ⟨EToken.PenUp, ⟨5, 5⟩⟩], context := [0],
       heap := [⟨EToken.Start, none, []⟩] } : Parser).tokens[0]? =
      some ⟨EToken.Move, ⟨0, 4⟩⟩ ∧
    ParseMove
      { tokens := [⟨EToken.Move, ⟨0, 4⟩⟩, ⟨EToken.PenUp, ⟨5, 5⟩⟩], context := [0],
        heap := [⟨EToken.Start, none, []⟩] } =
      Res.ret false
        { tokens := [⟨EToken.Move, ⟨0, 4⟩⟩, ⟨EToken.PenUp, ⟨5, 5⟩⟩], context := [0],
          heap := [⟨EToken.Start, none, []⟩],
          errors := [Diag.text "Number expected"] } :=
  ⟨rfl,
    ((C12_number_expected 1 (ParseStatements 0)
      { tokens := [⟨EToken.Move, ⟨0, 4⟩⟩, ⟨EToken.PenUp, ⟨5, 5⟩⟩], context := [0],
        heap := [⟨EToken.Start, none, []⟩] }
      ⟨EToken.Move, ⟨0, 4⟩⟩ rfl
      (by intro t ht; simp at ht; subst ht; simp)).2.2 rfl).1⟩

/-- C14: on the tokens of "function f (", whatever their spans, `Run` returns `false` for
every fuel from 2 on and leaves the cursor at 4 although the filtered token list has only
3 tokens: after `Expect(OpenParan)` has moved the cursor to the end of the list,
`AddChild(EToken::Identifier)` in the loop of `AddArguments` increments it once more.
The other half of the bound does hold: from every state, the cursor at the return of `Run`
is at least the cursor at entry. -/
theorem C14_cursor_past_end (k0 k2 sf : StringSplice) (fuel : Nat) :
    (∃ p,
      (Parser.New [⟨EToken.Function, k0⟩, ⟨EToken.Identifier, sf⟩,
        ⟨EToken.OpenParan, k2⟩]).andThen (fun _ => Run (fuel + 2)) = Res.ret false p ∧
      p.tokens.length = 3 ∧ p.currentToken = 4 ∧ p.tokens.length < p.currentToken) ∧
    ∀ (p : Parser) (b : Bool) (p' : Parser), Run fuel p = Res.ret b p' →
      p.currentToken ≤ p'.currentToken := by
  refine ⟨⟨_, run_function_open_paren k0 k2 sf fuel, rfl, rfl, Nat.lt_succ_self 3⟩, ?_⟩
  intro p b p' h
  have hr := Run_holds fuel p
  rw [h] at hr
  exact hr.1.2.1

theorem Holds_of_ret {α : Type} {r : Res α} {Q : α → Parser → Prop} {T : Parser → Prop}
    {U F : Prop} (h : r.Holds Q T U F) {a : α} {p' : Parser} (hr : r = Res.ret a p') :
    Q a p' := by
  subst hr; exact h

theorem ParseStatements_enough_fuel (p : Parser) (fuel : Nat)
    (h : p.remaining + 1 ≤ fuel) : ParseStatements fuel p ≠ Res.outOfFuel := by
  intro hr
  have hl := ParseStatements_loop fuel p
  rw [hr] at hl
  have : fuel ≤ p.remaining := hl
  omega

theorem Run_enough_fuel (p : Parser) (fuel : Nat)
    (h : p.remaining + 1 ≤ fuel) : Run fuel p ≠ Res.outOfFuel := by
  intro hr
  have hl := Run_holds fuel p
  rw [hr] at hl
  have : fuel ≤ p.remaining := hl
  omega

/-- C15: for every parser state, a call of `ParseStatement` that returns `true` leaves the
cursor strictly greater than before (and the token list unchanged); and `ParseStatements`
and `Run` terminate: with any fuel above the number of tokens from the cursor to the end of
the list they do not run out of fuel, and their outcome is the same for every such fuel. -/
theorem C15_progress_and_termination :
    (∀ (fuel : Nat) (p p' : Parser),
      ParseStatement fuel (ParseStatements fuel) p = Res.ret true p' →
        p.currentToken < p'.currentToken ∧ p'.tokens = p.tokens) ∧
    (∀ (p : Parser) (fuel : Nat), p.remaining + 1 ≤ fuel →
      ParseStatements fuel p ≠ Res.outOfFuel ∧
      ParseStatements fuel p = ParseStatements (p.remaining + 1) p ∧
      Run fuel p ≠ Res.outOfFuel ∧
      Run fuel p = Run (p.remaining + 1) p) := by
  constructor
  · intro fuel p p' h
    have hs := Holds_of_ret
      (ParseStatement_rule fuel (ParseStatements fuel) (ParseStatements_loop fuel) p) h
    exact ⟨(hs.2 rfl).2, hs.1.1⟩
  · intro p fuel h
    refine ⟨ParseStatements_enough_fuel p fuel h, ?_, Run_enough_fuel p fuel h, ?_⟩
    · rcases ParseStatements_fuel_le h p with e | e
      · exact absurd e (ParseStatements_enough_fuel p _ (Nat.le_refl _))
      · exact e
    · rcases Run_fuel_le h p with e | e
      · exact absurd e (Run_enough_fuel p _ (Nat.le_refl _))
      · exact e

theorem ParseStatement_pendown :
    ParseStatement 1 (ParseStatements 1)
      { tokens := [⟨EToken.PenDown, ⟨0, 7⟩⟩], context := [0],
        heap := [⟨EToken.Start, none, []⟩] } =
    Res.ret true
      { tokens := [⟨EToken.PenDown, ⟨0, 7⟩⟩], currentToken := 1, context := [0],
        heap := [⟨EToken.Start, none, [1]⟩,
          ⟨EToken.PenDown, some (Token.ofType EToken.PenDown), []⟩] } := by
  simp [ParseStatement, AtEnd, bind, M.bind, pure, CurrentTokenType, CurrentToken, TokensAt,
    AddChildEToken, AddChildToken, AddChild, ContextBack, AstNode.AddChild, AstNode.NewToken,
    IncCurrentToken, heapAddChild, Token.ofType]

/-- C15 at the state that `Parser(lexer)` leaves for the single token `pendown`:
`ParseStatement` moves the cursor from 0 to 1, and fuel 2 is enough for `Run`. -/
theorem C15_progress_and_termination_witness :
    ParseStatement 1 (ParseStatements 1)
      { tokens := [⟨EToken.PenDown, ⟨0, 7⟩⟩], context := [0],
        heap := [⟨EToken.Start, none, []⟩] } =
    Res.ret true
      { tokens := [⟨EToken.PenDown, ⟨0, 7⟩⟩], currentToken := 1, context := [0],
        heap := [⟨EToken.Start, none, [1]⟩,
          ⟨EToken.PenDown, some (Token.ofType EToken.PenDown), []⟩] } ∧
    (0 : Nat) < 1 ∧
    ({ tokens := [⟨EToken.PenDown, ⟨0, 7⟩⟩], context := [0],
        heap := [⟨EToken.Start, none, []⟩] } : Parser).remaining + 1 ≤ 2 ∧
    Run 2
      { tokens := [⟨EToken.PenDown, ⟨0, 7⟩⟩], context := [0],
        heap := [⟨EToken.Start, none, []⟩] } ≠ Res.outOfFuel :=
  ⟨ParseStatement_pendown,
    (C15_progress_and_termination.1 1 _ _ ParseStatement_pendown).1,
    by decide,
    (C15_progress_and_termination.2
      { tokens := [⟨EToken.PenDown, ⟨0, 7⟩⟩], context := [0],
        heap := [⟨EToken.Start, none, []⟩] } 2 (by decide)).2.2.1⟩

/-- C16: for all tokens `a` and `b`, `a == b` holds if and only if their types are equal,
whatever their source spans; so token equality is reflexive, symmetric and transitive, and
two tokens of the same kind with different spans compare equal. -/
theorem C16_token_equality (a b : Token) :
    (Token.eq a b = true ↔ a.type = b.type) ∧
    Token.eq a a = true ∧
    Token.eq a b = Token.eq b a ∧
    (∀ c : Token, Token.eq a b = true → Token.eq b c = true → Token.eq a c = true) ∧
    (∀ (type : EToken) (s1 s2 : StringSplice), Token.eq ⟨type, s1⟩ ⟨type, s2⟩ = true) := by
  refine ⟨by simp [Token.eq], by simp [Token.eq], ?_, ?_, by simp [Token.eq]⟩
  · simp only [Token.eq]
    by_cases h : a.type = b.type
    · simp [h]
    · have h' : ¬ b.type = a.type := fun e => h e.symm
      simp [h, h']
  · intro c hab hbc
    simp only [Token.eq, decide_eq_true_eq] at hab hbc ⊢
    exact hab.trans hbc

/-- C16 at two `Number` tokens with different spans and a third. -/
theorem C16_token_equality_witness :
    Token.eq ⟨EToken.Number, ⟨0, 1⟩⟩ ⟨EToken.Number, ⟨7, 2⟩⟩ = true ∧
    Token.eq ⟨EToken.Number, ⟨7, 2⟩⟩ ⟨EToken.Number, ⟨3, 3⟩⟩ = true ∧
    Token.eq ⟨EToken.Number, ⟨0, 1⟩⟩ ⟨EToken.Number, ⟨3, 3⟩⟩ = true :=
  ⟨rfl, rfl,
    (C16_token_equality ⟨EToken.Number, ⟨0, 1⟩⟩ ⟨EToken.Number, ⟨7, 2⟩⟩).2.2.2.1
      ⟨EToken.Number, ⟨3, 3⟩⟩ rfl rfl⟩

/-- C17: for every lexer output and every fuel, `Run` on the parser constructed from it
never reaches undefined behaviour, that is, `LeaveNode` never pops an empty context stack
and `AddChild` always finds a top node for `_context.back()`; and whenever `Run` returns,
the context stack is not empty.  The same holds from every state whose context stack is not
empty. -/
theorem C17_context_never_empty (lexer : List Token) (fuel : Nat) :
    (Parser.New lexer).andThen (fun _ => Run fuel) ≠ Res.undef ∧
    (∀ b p', (Parser.New lexer).andThen (fun _ => Run fuel) = Res.ret b p' →
      p'.context ≠ []) ∧
    (∀ p : Parser, p.context ≠ [] → Run fuel p ≠ Res.undef ∧
      ∀ b p', Run fuel p = Res.ret b p' → p'.context ≠ []) := by
  have key : ∀ p : Parser, p.context ≠ [] → Run fuel p ≠ Res.undef ∧
      ∀ b p', Run fuel p = Res.ret b p' → p'.context ≠ [] := by
    intro p hne
    have hr := Run_holds fuel p
    constructor
    · intro hu
      rw [hu] at hr
      exact hne hr
    · intro b p' hb
      rw [hb] at hr
      exact fun he => hne (hr.1.nil he)
  rw [Parser.New_eq]
  have k0 := key
    { tokens := lexer.filter (fun t => t.type ≠ EToken.WhiteSpace), context := [0],
      heap := [⟨EToken.Start, none, []⟩] } (by simp)
  exact ⟨k0.1, k0.2, key⟩

/-- C17 at the tokens of "repeat 4 { move 10": the parse fails and the context stack is
left with two entries. -/
theorem C17_context_never_empty_witness :
    (Parser.New [⟨EToken.Repeat, ⟨0, 6⟩⟩, ⟨EToken.Number, ⟨7, 1⟩⟩, ⟨EToken.OpenBrace, ⟨9, 1⟩⟩,
        ⟨EToken.Move, ⟨11, 4⟩⟩, ⟨EToken.Number, ⟨16, 2⟩⟩]).andThen
      (fun _ => Run 3) = Res.ret false
      { tokens := [⟨EToken.Repeat, ⟨0, 6⟩⟩, ⟨EToken.Number, ⟨7, 1⟩⟩,
          ⟨EToken.OpenBrace, ⟨9, 1⟩⟩, ⟨EToken.Move, ⟨11, 4⟩⟩, ⟨EToken.Number, ⟨16, 2⟩⟩],
        currentToken := 5, context := [0, 1],
        heap := [⟨EToken.Start, none, [1]⟩, ⟨EToken.Repeat, none, [2, 3]⟩,
          ⟨EToken.Number, some ⟨EToken.Number, ⟨7, 1⟩⟩, []⟩, ⟨EToken.Move, none, [4]⟩,
          ⟨EToken.Number, some ⟨EToken.Number, ⟨16, 2⟩⟩, []⟩],
        errors := [Diag.what "out_of_range"] } ∧
    ([0, 1] : List AstNodePtr) ≠ [] :=
  ⟨run_repeat_unclosed ⟨0, 6⟩ ⟨9, 1⟩ ⟨11, 4⟩ ⟨7, 1⟩ ⟨16, 2⟩ 0,
    (C17_context_never_empty _ 3).2.1 _ _
      (run_repeat_unclosed ⟨0, 6⟩ ⟨9, 1⟩ ⟨11, 4⟩ ⟨7, 1⟩ ⟨16, 2⟩ 0)⟩

/-- C18: on the tokens of "function f ( 7 ) { }", whatever their spans, `Run` returns
success for every fuel from 3 on: the `Number` token in the argument position is consumed
by `AddChild(EToken::Identifier)` without being looked at, and an `Identifier` leaf holding
a fresh `Token(Identifier)` is attached to the `ArgList` node for it. -/
theorem C18_non_identifier_argument_accepted (k0 k2 k3 k4 k5 k6 sf : StringSplice)
    (fuel : Nat) :
    ∃ p root,
      (Parser.New [⟨EToken.Function, k0⟩, ⟨EToken.Identifier, sf⟩, ⟨EToken.OpenParan, k2⟩,
        ⟨EToken.Number, k3⟩, ⟨EToken.CloseParan, k4⟩, ⟨EToken.OpenBrace, k5⟩,
        ⟨EToken.CloseBrace, k6⟩]).andThen (fun _ => Run (fuel + 3)) = Res.ret true p ∧
      GetRoot p = Res.ret (some root) p ∧
      p.tree root = some (Tree.node EToken.Start none
        [Tree.node EToken.Function none
          [Tree.leaf ⟨EToken.Identifier, sf⟩,
           Tree.node EToken.ArgList none [Tree.leaf (Token.ofType EToken.Identifier)],
           Tree.node EToken.StatementBlock none []]]) :=
  ⟨_, 0, run_function_number_arg k0 k2 k3 k4 k5 k6 sf fuel, by simp [GetRoot], by
    simp [Parser.tree, toTree, allSome, Tree.leaf, Token.ofType]⟩

/-- C19: on the tokens of "delta red {", whatever their spans, `Run` returns success for
every fuel from 2 on and the tree holds a `Delta` node whose second child holds the
`OpenBrace` token: `AddDelta` attaches the token behind `red` without checking that it is a
`Number`. -/
theorem C19_delta_with_non_number (k0 k1 k2 : StringSplice) (fuel : Nat) :
    ∃ p root,
      (Parser.New [⟨EToken.Delta, k0⟩, ⟨EToken.Red, k1⟩, ⟨EToken.OpenBrace, k2⟩]).andThen
        (fun _ => Run (fuel + 2)) = Res.ret true p ∧
      GetRoot p = Res.ret (some root) p ∧
      p.tree root = some (Tree.node EToken.Start none
        [Tree.node EToken.Delta none
          [Tree.leaf ⟨EToken.Red, k1⟩, Tree.leaf ⟨EToken.OpenBrace, k2⟩]]) :=
  ⟨_, 0, run_delta_red_brace k0 k1 k2 fuel, by simp [GetRoot], by
    simp [Parser.tree, toTree, allSome, Tree.leaf]⟩

theorem SetLexer_constructed (first second : List Token) :
    (Parser.New first).andThen (fun _ => SetLexer second) = Res.ret ()
      { tokens := first.filter (fun t => t.type ≠ EToken.WhiteSpace) ++
          second.filter (fun t => t.type ≠ EToken.WhiteSpace),
        context := [0, 1],
        heap := [⟨EToken.Start, none, [1]⟩, ⟨EToken.Start, none, []⟩] } := by
  simp [Parser.New, Res.andThen, SetLexer, EnterNode, AstNode.New, bind, M.bind,
    heapAddChild]

theorem RunLexer_constructed (first second : List Token) (fuel : Nat) :
    (Parser.New first).andThen (fun _ => RunLexer fuel second) =
      Run fuel
        { tokens := first.filter (fun t => t.type ≠ EToken.WhiteSpace) ++
            second.filter (fun t => t.type ≠ EToken.WhiteSpace),
          context := [0, 1],
          heap := [⟨EToken.Start, none, [1]⟩, ⟨EToken.Start, none, []⟩] } := by
  simp [Parser.New, Res.andThen, RunLexer, SetLexer, EnterNode, AstNode.New, bind, M.bind,
    heapAddChild]

/-- C20: `SetLexer` accumulates.  For all lexer outputs `first` and `second`, calling
`SetLexer(second)` on the parser constructed from `first` leaves the working list as the
non-whitespace tokens of `first` followed by those of `second`, and a second `Start` node
that is a child of the first and on top of it on the context stack.  So after
`Run(second)` on that parser the context stack holds at least two entries, exactly the two
`Start` nodes when the parse succeeded, and `GetRoot` fails. -/
theorem C20_SetLexer_accumulates (first second : List Token) :
    (Parser.New first).andThen (fun _ => SetLexer second) = Res.ret ()
      { tokens := first.filter (fun t => t.type ≠ EToken.WhiteSpace) ++
          second.filter (fun t => t.type ≠ EToken.WhiteSpace),
        context := [0, 1],
        heap := [⟨EToken.Start, none, [1]⟩, ⟨EToken.Start, none, []⟩] } ∧
    ∀ (fuel : Nat) (b : Bool) (p' : Parser),
      (Parser.New first).andThen (fun _ => RunLexer fuel second) = Res.ret b p' →
        2 ≤ p'.context.length ∧ (b = true → p'.context = [0, 1]) ∧
        GetRoot p' = Res.ret none
          { p' with errors := p'.errors ++ [Diag.text "Unbalanced parse tree"] } := by
  refine ⟨SetLexer_constructed first second, fun fuel b p' h => ?_⟩
  rw [RunLexer_constructed] at h
  have hr := Run_holds fuel
    { tokens := first.filter (fun t => t.type ≠ EToken.WhiteSpace) ++
        second.filter (fun t => t.type ≠ EToken.WhiteSpace),
      context := [0, 1],
      heap := [⟨EToken.Start, none, [1]⟩, ⟨EToken.Start, none, []⟩] }
  rw [h] at hr
  obtain ⟨f, s, -⟩ := hr
  obtain ⟨rest, hrest⟩ := f.2.2
  have hc : p'.context = 0 :: 1 :: rest := by
    rw [← hrest]
    rfl
  refine ⟨by rw [hc]; simp, s, ?_⟩
  simp [GetRoot, hc]

theorem run_twice_pendown (fuel : Nat) :
    (Parser.New [⟨EToken.PenDown, ⟨0, 7⟩⟩]).andThen
      (fun _ => RunLexer (fuel + 3) [⟨EToken.PenDown, ⟨0, 7⟩⟩]) = Res.ret true
      { tokens := [⟨EToken.PenDown, ⟨0, 7⟩⟩, ⟨EToken.PenDown, ⟨0, 7⟩⟩], currentToken := 2,
        context := [0, 1],
        heap := [⟨EToken.Start, none, [1]⟩, ⟨EToken.Start, none, [2, 3]⟩,
          ⟨EToken.PenDown, some (Token.ofType EToken.PenDown), []⟩,
          ⟨EToken.PenDown, some (Token.ofType EToken.PenDown), []⟩] } := by
  simp [Parser.New, Res.andThen, RunLexer, Run, ParseStatements, ParseStatement, AtEnd,
    SetLexer, EnterNode, AstNode.New, bind, M.bind, pure, CurrentTokenType, CurrentToken,
    TokensAt, AddChildEToken, AddChildToken, AddChild, ContextBack, AstNode.AddChild,
    AstNode.NewToken, IncCurrentToken, HasSucceeded, heapAddChild, Token.ofType]

/-- C20 at `Parser parser(lexer); parser.Run(lexer);` for the single token `pendown`: the
parse of the two accumulated tokens succeeds and the context stack holds two entries. -/
theorem C20_SetLexer_accumulates_witness :
    (Parser.New [⟨EToken.PenDown, ⟨0, 7⟩⟩]).andThen
      (fun _ => RunLexer 3 [⟨EToken.PenDown, ⟨0, 7⟩⟩]) = Res.ret true
      { tokens := [⟨EToken.PenDown, ⟨0, 7⟩⟩, ⟨EToken.PenDown, ⟨0, 7⟩⟩], currentToken := 2,
        context := [0, 1],
        heap := [⟨EToken.Start, none, [1]⟩, ⟨EToken.Start, none, [2, 3]⟩,
          ⟨EToken.PenDown, some (Token.ofType EToken.PenDown), []⟩,
          ⟨EToken.PenDown, some (Token.ofType EToken.PenDown), []⟩] } ∧
    2 ≤ ([0, 1] : List AstNodePtr).length :=
  ⟨run_twice_pendown 0,
    ((C20_SetLexer_accumulates [⟨EToken.PenDown, ⟨0, 7⟩⟩] [⟨EToken.PenDown, ⟨0, 7⟩⟩]).2 3
      true _ (run_twice_pendown 0)).1⟩

end TurtleGraphics.Processor
